import Mathlib

/-!
# s3restore: point-in-time restore of a versioned bucket

A shallow embedding of `s3restore.go` (functions `parseTimestamp`, `parseArguments`
and `main`) together with the parts of the Go standard library and of the S3 client
that decide its behaviour (`strconv.ParseInt`, `time.Unix`, `Time.After`, `log.Fatal`,
`ListObjectVersions`, `CopyObject`).

The storage service is external: it is a parameter of the program, given as a state
machine over an arbitrary state type.  Standard output and the text of log messages
are not represented; the calls sent to the storage service and the exit status are.
-/

namespace S3Restore

/-! ## Package `time` -/

/-- Offset, in seconds, between the internal epoch of a Go `time.Time` (1 January of
year 1) and the Unix epoch: the constant `unixToInternal` of package `time`. -/
def unixToInternal : Int := (1969 * 365 + 1969 / 4 - 1969 / 100 + 1969 / 400) * 86400

/-- Two's complement wrap-around of a mathematical integer to the range of `int64`. -/
def wrapInt64 (x : Int) : Int := (x + 2 ^ 63) % 2 ^ 64 - 2 ^ 63

/-- A Go `time.Time` without monotonic clock reading: `sec` is the `int64` count of
seconds since 1 January of year 1, `nsec` the nanoseconds within that second. -/
structure Time where
  sec : Int
  nsec : Nat
deriving DecidableEq

/-- The method `Time.After`: `t` is strictly later than `u`. -/
def Time.After (t u : Time) : Bool :=
  decide (t.sec > u.sec) || (decide (t.sec = u.sec) && decide (t.nsec > u.nsec))

/-- The method `Time.Unix`: seconds since the Unix epoch (as a mathematical integer). -/
def Time.unixSeconds (t : Time) : Int := t.sec - unixToInternal

/-- The function `time.Unix(sec, nsec)`.  The seconds are `int64`: adding
`unixToInternal` wraps around (the documentation of `time.Unix` notes that not every
`sec` has a corresponding time value, `1<<63-1` being one). -/
def timeUnix (sec nsec : Int) : Time :=
  if nsec < 0 ∨ nsec ≥ 1000000000 then
    let n := Int.tdiv nsec 1000000000
    let sec1 := wrapInt64 (sec + n)
    let nsec1 := nsec - n * 1000000000
    if nsec1 < 0 then
      ⟨wrapInt64 (wrapInt64 (sec1 - 1) + unixToInternal), (nsec1 + 1000000000).toNat⟩
    else
      ⟨wrapInt64 (sec1 + unixToInternal), nsec1.toNat⟩
  else
    ⟨wrapInt64 (sec + unixToInternal), nsec.toNat⟩

/-! ## Package `strconv` -/

/-- The two error kinds of `strconv.NumError`. -/
inductive NumError where
  | ErrSyntax
  | ErrRange
deriving DecidableEq

/-- Largest `uint64`. -/
def maxUint64 : Nat := 2 ^ 64 - 1

/-- Value of one byte as a digit, as in the loop of `strconv.ParseUint`: decimal
digits and letters of either case; any other byte is no digit. -/
def digitVal (d : Char) : Option Nat :=
  if '0' ≤ d ∧ d ≤ '9' then some (d.toNat - '0'.toNat)
  else if 'a' ≤ d ∧ d ≤ 'z' then some (d.toNat - 'a'.toNat + 10)
  else if 'A' ≤ d ∧ d ≤ 'Z' then some (d.toNat - 'A'.toNat + 10)
  else none

/-- The digit loop of `strconv.ParseUint` for a given base, with `cutoff` the least
number whose product with the base overflows `uint64` and `maxVal` the largest value
of the requested bit size.  Returns the pair (value, error) of the Go function. -/
def parseUintLoop (base cutoff maxVal : Nat) : List Char → Nat → Nat × Option NumError
  | [], n => (n, none)
  | d :: rest, n =>
    match digitVal d with
    | none => (0, some .ErrSyntax)
    | some v =>
      if v ≥ base then (0, some .ErrSyntax)
      else if n ≥ cutoff then (maxUint64, some .ErrRange)
      else
        let n0 := (n * base) % 2 ^ 64
        let n1 := (n0 + v) % 2 ^ 64
        if n1 < n0 ∨ n1 > maxVal then (maxUint64, some .ErrRange)
        else parseUintLoop base cutoff maxVal rest n1

/-- The call `strconv.ParseUint(s, 10, 64)` on the bytes of `s`. -/
def ParseUint (s : List Char) : Nat × Option NumError :=
  match s with
  | [] => (0, some .ErrSyntax)
  | _ => parseUintLoop 10 (maxUint64 / 10 + 1) (2 ^ 64 - 1) s 0

/-- The call `strconv.ParseInt(s, 10, 64)`: pair (value, error) of the Go function.
A character outside ASCII stands for its bytes, none of which is a digit or a sign. -/
def ParseInt (s : String) : Int × Option NumError :=
  match s.data with
  | [] => (0, some .ErrSyntax)
  | c :: rest =>
    let neg := decide (c = '-')
    let body := if c = '+' then rest else if c = '-' then rest else c :: rest
    let r := ParseUint body
    match r.2 with
    | some .ErrSyntax => (0, some .ErrSyntax)
    | _ =>
      let un := r.1
      let cutoff : Nat := 2 ^ 63
      if !neg && decide (un ≥ cutoff) then ((cutoff : Int) - 1, some .ErrRange)
      else if neg && decide (un > cutoff) then (-(cutoff : Int), some .ErrRange)
      else
        let n := wrapInt64 un
        (if neg then wrapInt64 (-n) else n, none)

/-! ## The program -/

/-- Exit status of `log.Fatal`, which prints its arguments and calls `os.Exit(1)`. -/
def logFatalExit : Nat := 1

/-- Function `parseTimestamp`; the error branch is the `log.Fatal(err)` of the source,
which ends the process. -/
def parseTimestamp (timestamp : String) : Except NumError Time :=
  match ParseInt timestamp with
  | (i, none) => .ok (timeUnix i 0)
  | (_, some err) => .error err

/-- The type `ParsedArgs`; the Go map `Args` is an association list. -/
structure ParsedArgs where
  CommandName : String
  Args : List (String × String)
deriving DecidableEq

/-- Reading a Go `map[string]string`: the zero value for an absent key. -/
def ParsedArgs.arg (a : ParsedArgs) (name : String) : String :=
  match a.Args.lookup name with
  | some v => v
  | none => ""

/-- The command line as `parseArguments` sees it once package `flag` has parsed the
flags of the sub-command (a `FlagSet` created with `flag.ExitOnError` ends the
process itself when the flags are malformed, so `Parse` returns no error). -/
inductive Invocation where
  | noCommand
  | restore (bucket timestamp pfx : String)
  | list (since : String)
  | other (command : String)
deriving DecidableEq

/-- Function `parseArguments`: either the status passed to `os.Exit` or the result. -/
def parseArguments : Invocation → Except Nat ParsedArgs
  | .noCommand => .error 2
  | .restore bkt ts prx =>
    if bkt = "" ∨ ts = "" then .error 2
    else .ok ⟨"restore", [("bucket", bkt), ("timestamp", ts), ("prefix", prx)]⟩
  | .list _ => .error 2
  | .other _ => .error 2

/-- The fields of `s3.ObjectVersion` the program reads, and the entity tag, which
identifies the content of the version.  In Go the fields are pointers; the service
fills them in every record it lists, so they are plain values here. -/
structure ObjectVersion where
  Key : String
  VersionId : String
  LastModified : Time
  ETag : String
deriving DecidableEq

/-- Request of `ListObjectVersions`: the program sets `Bucket` and `Prefix` only;
the markers are those with which a listing is continued. -/
structure ListObjectVersionsInput where
  Bucket : String
  Prefix : String
  KeyMarker : Option String
  VersionIdMarker : Option String
deriving DecidableEq

/-- Response of `ListObjectVersions`: one page of versions. -/
structure ListObjectVersionsOutput where
  Versions : List ObjectVersion
  IsTruncated : Bool
  NextKeyMarker : Option String
  NextVersionIdMarker : Option String
deriving DecidableEq

/-- Request of `CopyObject` as the program builds it. -/
structure CopyObjectInput where
  Bucket : String
  CopySource : String
  Key : String
deriving DecidableEq

/-- Response of `CopyObject`: entity tag and version id of the new current version. -/
structure CopyObjectOutput where
  ETag : String
  VersionId : String
deriving DecidableEq

/-- The S3 client `svc` as a state machine over the state `σ` of the storage. -/
structure S3 (σ : Type) where
  ListObjectVersions : ListObjectVersionsInput → σ → Except String ListObjectVersionsOutput × σ
  CopyObject : CopyObjectInput → σ → Except String CopyObjectOutput × σ

/-- One pass through the body of the `if restoreTime.After(...)`: the version printed
after "Restoring...", the request sent and what the service answered. -/
structure CopyCall where
  version : ObjectVersion
  input : CopyObjectInput
  output : Except String CopyObjectOutput

/-- What the `for` loop of `main` leaves behind: the copies issued in order, whether
`log.Fatal` ended it, and the state of the storage. -/
structure LoopResult (σ : Type) where
  calls : List CopyCall
  failed : Bool
  world : σ

/-- Membership test `_, ok := restored[key]` on the Go map `restored`. -/
def hasKey (restored : List (String × Bool)) (key : String) : Bool :=
  restored.any (fun p => p.1 == key)

/-- The request built in the loop body for one version. -/
def copyParams (bucket : String) (version : ObjectVersion) : CopyObjectInput :=
  { Bucket := bucket
    CopySource := bucket ++ "/" ++ version.Key ++ "?versionId=" ++ version.VersionId
    Key := version.Key }

/-- The `for _, version := range listVersionResp.Versions` loop of `main`. -/
def restoreLoop {σ : Type} (svc : S3 σ) (bucket : String) (restoreTime : Time) :
    List ObjectVersion → List (String × Bool) → σ → LoopResult σ
  | [], _, w => ⟨[], false, w⟩
  | version :: rest, restored, w =>
    if hasKey restored version.Key then restoreLoop svc bucket restoreTime rest restored w
    else if restoreTime.After version.LastModified then
      match svc.CopyObject (copyParams bucket version) w with
      | (.error e, w1) => ⟨[⟨version, copyParams bucket version, .error e⟩], true, w1⟩
      | (.ok copyResp, w1) =>
        let r := restoreLoop svc bucket restoreTime rest ((version.Key, true) :: restored) w1
        ⟨⟨version, copyParams bucket version, .ok copyResp⟩ :: r.calls, r.failed, r.world⟩
    else restoreLoop svc bucket restoreTime rest restored w

/-- A run of the program: exit status, requests sent to the storage, final state. -/
structure Run (σ : Type) where
  exitCode : Nat
  listCalls : List ListObjectVersionsInput
  copyCalls : List CopyCall
  world : σ

/-- Function `main`.  `sessionError` is the error of `session.NewSession`, if any. -/
def main {σ : Type} (sessionError : Option String) (svc : S3 σ) (inv : Invocation)
    (w : σ) : Run σ :=
  match sessionError with
  | some _ => ⟨logFatalExit, [], [], w⟩
  | none =>
    match parseArguments inv with
    | .error code => ⟨code, [], [], w⟩
    | .ok args =>
      if args.CommandName = "restore" then
        let bucket := args.arg "bucket"
        let pfx := args.arg "prefix"
        let timestamp := args.arg "timestamp"
        let listVersionsParams : ListObjectVersionsInput :=
          { Bucket := bucket, Prefix := pfx, KeyMarker := none, VersionIdMarker := none }
        match svc.ListObjectVersions listVersionsParams w with
        | (.error _, w1) => ⟨logFatalExit, [listVersionsParams], [], w1⟩
        | (.ok listVersionResp, w1) =>
          match parseTimestamp timestamp with
          | .error _ => ⟨logFatalExit, [listVersionsParams], [], w1⟩
          | .ok restoreTime =>
            let r := restoreLoop svc bucket restoreTime listVersionResp.Versions [] w1
            ⟨if r.failed then logFatalExit else 0, [listVersionsParams], r.calls, r.world⟩
      else ⟨0, [], [], w⟩

/-! ## The components of the specification -/

/-- The Restore Selector in the words of the specification (section 4.1): for each
record in sequence order, skip it if its key is in `seen`; else, if its `lastModified`
is strictly before `T`, emit it and mark the key as seen; else continue. -/
def specSelect (T : Time) : List ObjectVersion → List String → List ObjectVersion
  | [], _ => []
  | v :: vs, seen =>
    if v.Key ∈ seen then specSelect T vs seen
    else if T.After v.LastModified then v :: specSelect T vs (v.Key :: seen)
    else specSelect T vs seen

/-- The Object Restorer in the words of the specification (sections 4.3, 5 and 7):
the targets are applied one at a time, in order, each by a copy in place; the first
copy that fails aborts the remaining ones. -/
def specApplyTargets {σ : Type} (svc : S3 σ) (bucket : String) :
    List ObjectVersion → σ → LoopResult σ
  | [], w => ⟨[], false, w⟩
  | v :: vs, w =>
    match svc.CopyObject (copyParams bucket v) w with
    | (.error e, w1) => ⟨[⟨v, copyParams bucket v, .error e⟩], true, w1⟩
    | (.ok resp, w1) =>
      let r := specApplyTargets svc bucket vs w1
      ⟨⟨v, copyParams bucket v, .ok resp⟩ :: r.calls, r.failed, r.world⟩

/-- The versions the loop selected: those printed after "Restoring...". -/
def LoopResult.selected {σ : Type} (r : LoopResult σ) : List ObjectVersion :=
  r.calls.map (fun c => c.version)

/-- The first record of key `k` in `vs` whose `LastModified` is strictly before `T`. -/
def firstBefore (T : Time) (k : String) (vs : List ObjectVersion) : Option ObjectVersion :=
  vs.find? (fun v => decide (v.Key = k) && T.After v.LastModified)

/-- Each key's records appear newest first: a record is never later than a record of
the same key that precedes it in the sequence. -/
def NewestFirst (vs : List ObjectVersion) : Prop :=
  vs.Pairwise (fun a b => a.Key = b.Key → b.LastModified.After a.LastModified = false)

instance (vs : List ObjectVersion) : Decidable (NewestFirst vs) := by
  unfold NewestFirst
  infer_instance

/-- A copy succeeded. -/
def CopyCall.ok (c : CopyCall) : Bool :=
  match c.output with
  | .ok _ => true
  | .error _ => false

/-! ## The timestamp of the specification -/

/-- A decimal digit. -/
def isDecimalDigit (c : Char) : Bool := decide ('0' ≤ c ∧ c ≤ '9')

/-- The number a sequence of decimal digits denotes, continuing from `n`. -/
def decimalValueFrom (n : Nat) (ds : List Char) : Nat :=
  ds.foldl (fun m c => 10 * m + (c.toNat - '0'.toNat)) n

/-- The integer a timestamp string denotes, in the words of the specification
("integer Unix epoch seconds"): an optional sign followed by one or more decimal
digits; `none` for a string that is not numeric. -/
def specIntegerOfString (s : String) : Option Int :=
  match s.data with
  | [] => none
  | c :: rest =>
    let ds := if c = '+' ∨ c = '-' then rest else c :: rest
    if ds ≠ [] ∧ ds.all isDecimalDigit = true then
      some (if c = '-' then -(decimalValueFrom 0 ds : Int) else (decimalValueFrom 0 ds : Int))
    else none

/-! ## The versioned storage of the specification -/

/-- Modelled from the spec: the versioned bucket of the storage system (sections 4.2,
4.3 and the glossary), which lies outside the program: its name, the version
records in listing order, each key's records newest first, and the number of copies
made so far. -/
structure Bucket where
  name : String
  versions : List ObjectVersion
  copies : Nat

/-- Modelled from the spec: a new version becomes the newest record of its key's
history: it is put in front of the key's first record (at the end for a new key). -/
def putVersion (new : ObjectVersion) : List ObjectVersion → List ObjectVersion
  | [] => [new]
  | r :: rest => if r.Key = new.Key then new :: r :: rest else r :: putVersion new rest

/-- Modelled from the spec: the storage system over a versioned bucket.  The listing
answers, in one page, the records whose key starts with the requested string.  A copy
in place looks up the version of the destination key named by the copy source and
appends to the key's history a new current version with the same content; its version
id and modification time are those `stamp` gives for the number of the copy. -/
def versionedStorage (stamp : Nat → String × Time) : S3 Bucket where
  ListObjectVersions := fun inp b =>
    if inp.Bucket = b.name then
      (.ok ⟨b.versions.filter (fun v => inp.Prefix.data.isPrefixOf v.Key.data),
          false, none, none⟩, b)
    else (.error "NoSuchBucket", b)
  CopyObject := fun inp b =>
    if inp.Bucket = b.name then
      match b.versions.find? (fun v => decide (v.Key = inp.Key)
          && decide (inp.CopySource
              = inp.Bucket ++ "/" ++ v.Key ++ "?versionId=" ++ v.VersionId)) with
      | some src =>
        (.ok ⟨src.ETag, (stamp b.copies).1⟩,
          ⟨b.name, putVersion ⟨inp.Key, (stamp b.copies).1, (stamp b.copies).2, src.ETag⟩
            b.versions, b.copies + 1⟩)
      | none => (.error "NoSuchVersion", b)
    else (.error "NoSuchBucket", b)

/-- The entity tag answered by the copy issued for key `k`, if one was issued and
succeeded. -/
def copiedETag (calls : List CopyCall) (k : String) : Option String :=
  match calls.find? (fun c => decide (c.input.Key = k)) with
  | some c =>
    (match c.output with
     | .ok resp => some resp.ETag
     | .error _ => none)
  | none => none

/-- The entity tag of the current (newest) version of key `k` in the bucket. -/
def Bucket.currentETag (b : Bucket) (k : String) : Option String :=
  (b.versions.find? (fun v => decide (v.Key = k))).map (fun v => v.ETag)

/-- The history of key `k`: its records in listing order. -/
def history (k : String) (l : List ObjectVersion) : List ObjectVersion :=
  l.filter (fun v => decide (v.Key = k))

/-- The entity tag of the first record of a history with the given version id. -/
def resolveETag (h : List ObjectVersion) (versionId : String) : Option String :=
  (h.find? (fun v => decide (v.VersionId = versionId))).map (fun v => v.ETag)

/-- The record the selector picks for key `k` from the listing of the bucket under
a key prefix: the first record of the key's history modified before `T`. -/
def selectedOf (T : Time) (pfx : String) (b : Bucket) (k : String) : Option ObjectVersion :=
  if pfx.data.isPrefixOf k.data then
    (history k b.versions).find? (fun v => T.After v.LastModified)
  else none

/-! ## Concrete data of the examples -/

/-- A version written at the given Unix time; the entity tag names the content. -/
def versionAt (key versionId : String) (unix : Int) : ObjectVersion :=
  ⟨key, versionId, timeUnix unix 0, key ++ "-" ++ versionId⟩

/-- The listing of the end-to-end example of the specification: key `a` with v3 of
2021-06-02, v2 of 2021-05-30 and v1 of 2021-05-01, key `c` with v2 of 2021-05-15. -/
def exampleVersions : List ObjectVersion :=
  [versionAt "a" "v3" 1622592000, versionAt "a" "v2" 1622332800,
   versionAt "a" "v1" 1619827200, versionAt "c" "v2" 1621036800]

/-- The restore time of the example, 2021-06-01T00:00:00Z. -/
def exampleT : Time := timeUnix 1622505600 0

/-- One key with versions at 10:00, 09:00 and 08:00 (of 1 January 1970). -/
def boundaryVersions : List ObjectVersion :=
  [versionAt "k" "v3" 36000, versionAt "k" "v2" 32400, versionAt "k" "v1" 28800]

/-- One key with versions at 10:00 and 11:00 only. -/
def lateVersions : List ObjectVersion :=
  [versionAt "k" "v1" 36000, versionAt "k" "v2" 39600]

/-- The restore time 09:00 (of 1 January 1970). -/
def nineOClock : Time := timeUnix 32400 0

/-- A storage service without state whose copies of key `bad` fail and whose other
copies succeed; its listing is the given single page. -/
def failingCopyService (bad : String) (page : List ObjectVersion) : S3 Unit where
  ListObjectVersions := fun _ w => (.ok ⟨page, false, none, none⟩, w)
  CopyObject := fun inp w =>
    if inp.Key = bad then (.error "InternalError", w) else (.ok ⟨"", ""⟩, w)

/-- The example listing with the record of key `c` moved in front of those of key
`a`; each key's own records keep their order. -/
def exampleInterleaved : List ObjectVersion :=
  [versionAt "a" "v3" 1622592000, versionAt "c" "v2" 1621036800,
   versionAt "a" "v2" 1622332800, versionAt "a" "v1" 1619827200]

/-- Two keys, one version each, written at 08:00; key `a` listed first. -/
def twoKeysAC : List ObjectVersion :=
  [versionAt "a" "v1" 28800, versionAt "c" "v1" 28800]

/-- The same two records with key `c` listed first. -/
def twoKeysCA : List ObjectVersion :=
  [versionAt "c" "v1" 28800, versionAt "a" "v1" 28800]

/-- The Version Lister in the words of the specification (section 4.2): the listing
drained page by page, each request continuing from the markers of the previous
response, until a response is not truncated (at most `fuel` pages). -/
def specDrainPages {σ : Type} (svc : S3 σ) (bucket pfx : String) :
    Nat → Option String → Option String → σ → Except String (List ObjectVersion) × σ
  | 0, _, _, w => (.error "more pages than fuel", w)
  | fuel + 1, keyMarker, versionIdMarker, w =>
    match svc.ListObjectVersions ⟨bucket, pfx, keyMarker, versionIdMarker⟩ w with
    | (.error e, w1) => (.error e, w1)
    | (.ok resp, w1) =>
      if resp.IsTruncated then
        match specDrainPages svc bucket pfx fuel resp.NextKeyMarker resp.NextVersionIdMarker w1 with
        | (.ok more, w2) => (.ok (resp.Versions ++ more), w2)
        | (.error e, w2) => (.error e, w2)
      else (.ok resp.Versions, w1)

/-- A storage service without state whose listing has two pages: the first request
(no marker) answers the record of key `a` and is truncated, the request continued
from its markers answers the record of key `c`.  Its copies succeed. -/
def pagedService : S3 Unit where
  ListObjectVersions := fun inp w =>
    match inp.KeyMarker with
    | none => (.ok ⟨[versionAt "a" "v1" 28800], true, some "a", some "v1"⟩, w)
    | some _ => (.ok ⟨[versionAt "c" "v1" 28800], false, none, none⟩, w)
  CopyObject := fun _ w => (.ok ⟨"", ""⟩, w)

/-- A bucket `b` with the listing of the example of the specification. -/
def exampleBucket : Bucket := ⟨"b", exampleVersions, 0⟩

/-- Version ids `r`, `rr`, ... and modification times from 2023-11-14 on, one second
apart, for the copies of the storage. -/
def exampleStamp (n : Nat) : String × Time :=
  (String.mk (List.replicate (n + 1) 'r'), timeUnix (1700000000 + n) 0)


/-! ## Lemmas on the loop -/

theorem hasKey_iff (restored : List (String × Bool)) (k : String) :
    hasKey restored k = true ↔ k ∈ restored.map Prod.fst := by
  simp only [hasKey, List.any_eq_true, List.mem_map, beq_iff_eq]

/-- The loop of `main` is the restorer applied to the selector's output. -/
theorem restoreLoop_eq_specApplyTargets {σ : Type} (svc : S3 σ) (bucket : String) (T : Time)
    (vs : List ObjectVersion) (restored : List (String × Bool)) (w : σ) :
    restoreLoop svc bucket T vs restored w
      = specApplyTargets svc bucket (specSelect T vs (restored.map Prod.fst)) w := by
  induction vs generalizing restored w with
  | nil => simp [restoreLoop, specSelect, specApplyTargets]
  | cons v vs ih =>
    by_cases hk : v.Key ∈ restored.map Prod.fst
    · have hk1 : hasKey restored v.Key = true := (hasKey_iff _ _).2 hk
      rw [restoreLoop, specSelect, if_pos hk1, if_pos hk, ih]
    · have hk1 : ¬ hasKey restored v.Key = true := fun h => hk ((hasKey_iff _ _).1 h)
      rw [restoreLoop, specSelect, if_neg hk1, if_neg hk]
      by_cases ha : T.After v.LastModified = true
      · rw [if_pos ha, if_pos ha, specApplyTargets]
        rcases hc : svc.CopyObject (copyParams bucket v) w with ⟨res, w1⟩
        cases res with
        | error e => rfl
        | ok resp =>
          simp only []
          rw [ih]
          rfl
      · rw [if_neg ha, if_neg ha, ih]

theorem specApplyTargets_selected_take {σ : Type} (svc : S3 σ) (bucket : String)
    (l : List ObjectVersion) (w : σ) :
    (specApplyTargets svc bucket l w).selected
      = l.take (specApplyTargets svc bucket l w).calls.length := by
  induction l generalizing w with
  | nil => simp [specApplyTargets, LoopResult.selected]
  | cons v vs ih =>
    rw [specApplyTargets]
    rcases hc : svc.CopyObject (copyParams bucket v) w with ⟨res, w1⟩
    cases res with
    | error e => simp [LoopResult.selected]
    | ok resp =>
      have := ih w1
      simp only [LoopResult.selected] at this ⊢
      simp [this]

theorem specApplyTargets_selected_of_not_failed {σ : Type} (svc : S3 σ) (bucket : String)
    (l : List ObjectVersion) (w : σ) (h : (specApplyTargets svc bucket l w).failed = false) :
    (specApplyTargets svc bucket l w).selected = l := by
  induction l generalizing w with
  | nil => simp [specApplyTargets, LoopResult.selected]
  | cons v vs ih =>
    rw [specApplyTargets] at h ⊢
    rcases hc : svc.CopyObject (copyParams bucket v) w with ⟨res, w1⟩
    rw [hc] at h
    cases res with
    | error e => simp at h
    | ok resp =>
      have := ih w1 h
      simp only [LoopResult.selected] at this ⊢
      simp [this]

/-! ## Lemmas on the selector -/

theorem specSelect_mem (T : Time) (vs : List ObjectVersion) (seen : List String)
    (v : ObjectVersion) (h : v ∈ specSelect T vs seen) :
    v ∈ vs ∧ T.After v.LastModified = true ∧ v.Key ∉ seen := by
  induction vs generalizing seen with
  | nil => simp [specSelect] at h
  | cons u us ih =>
    rw [specSelect] at h
    by_cases hk : u.Key ∈ seen
    · rw [if_pos hk] at h
      have := ih seen h
      exact ⟨List.mem_cons_of_mem _ this.1, this.2⟩
    · rw [if_neg hk] at h
      by_cases ha : T.After u.LastModified = true
      · rw [if_pos ha] at h
        rcases List.mem_cons.1 h with rfl | h1
        · exact ⟨List.mem_cons_self _ _, ha, hk⟩
        · have := ih _ h1
          refine ⟨List.mem_cons_of_mem _ this.1, this.2.1, ?_⟩
          intro hm
          exact this.2.2 (List.mem_cons_of_mem _ hm)
      · rw [if_neg ha] at h
        have := ih seen h
        exact ⟨List.mem_cons_of_mem _ this.1, this.2⟩

theorem specSelect_nodup (T : Time) (vs : List ObjectVersion) (seen : List String) :
    ((specSelect T vs seen).map (fun v => v.Key)).Nodup := by
  induction vs generalizing seen with
  | nil => simp [specSelect]
  | cons u us ih =>
    rw [specSelect]
    by_cases hk : u.Key ∈ seen
    · rw [if_pos hk]; exact ih seen
    · rw [if_neg hk]
      by_cases ha : T.After u.LastModified = true
      · rw [if_pos ha, List.map_cons, List.nodup_cons]
        refine ⟨?_, ih _⟩
        intro hm
        rcases List.mem_map.1 hm with ⟨x, hx, hxk⟩
        have := (specSelect_mem T us (u.Key :: seen) x hx).2.2
        exact this (by rw [hxk]; exact List.mem_cons_self _ _)
      · rw [if_neg ha]; exact ih seen

theorem specSelect_filter (T : Time) (vs : List ObjectVersion) (seen : List String)
    (k : String) :
    (specSelect T vs seen).filter (fun v => decide (v.Key = k))
      = if k ∈ seen then [] else (firstBefore T k vs).toList := by
  induction vs generalizing seen with
  | nil => simp [specSelect, firstBefore]
  | cons u us ih =>
    rw [specSelect]
    by_cases hk : u.Key ∈ seen
    · rw [if_pos hk, ih seen]
      by_cases hs : k ∈ seen
      · simp [hs]
      · have hne : ¬ u.Key = k := fun h => hs (h ▸ hk)
        simp [hs, firstBefore, List.find?_cons, hne]
    · rw [if_neg hk]
      by_cases ha : T.After u.LastModified = true
      · rw [if_pos ha]
        by_cases hkk : u.Key = k
        · subst hkk
          simp [hk, firstBefore, List.find?_cons, ha, List.filter_cons, ih]
        · have h1 : (k ∈ u.Key :: seen) ↔ k ∈ seen := by
            simp [List.mem_cons, Ne.symm hkk]
          simp only [List.filter_cons, hkk, decide_False, Bool.false_eq_true, if_false, ih, h1]
          simp [firstBefore, List.find?_cons, hkk]
      · rw [if_neg ha, ih seen]
        simp [firstBefore, List.find?_cons, ha]

theorem firstBefore_eq_filter (T : Time) (k : String) (vs : List ObjectVersion) :
    firstBefore T k vs
      = (vs.filter (fun v => decide (v.Key = k))).find? (fun v => T.After v.LastModified) := by
  rw [List.find?_filter]
  unfold firstBefore
  congr 1
  funext a
  simp

theorem firstBefore_some (T : Time) (k : String) (vs : List ObjectVersion) (v : ObjectVersion)
    (h : firstBefore T k vs = some v) :
    ∃ l1 l2, vs = l1 ++ v :: l2 ∧ v.Key = k ∧ T.After v.LastModified = true
      ∧ ∀ u ∈ l1, u.Key = k → T.After u.LastModified = false := by
  unfold firstBefore at h
  rcases List.find?_eq_some.1 h with ⟨hp, l1, l2, hvs, hl1⟩
  simp only [Bool.and_eq_true, decide_eq_true_eq] at hp
  refine ⟨l1, l2, hvs, hp.1, hp.2, ?_⟩
  intro u hu huk
  have := hl1 u hu
  simpa [huk] using this

theorem firstBefore_isSome (T : Time) (k : String) (vs : List ObjectVersion)
    (h : ∃ v ∈ vs, v.Key = k ∧ T.After v.LastModified = true) :
    ∃ v, firstBefore T k vs = some v := by
  rcases h with ⟨v, hv, hk, ha⟩
  have : (firstBefore T k vs).isSome = true := by
    unfold firstBefore
    rw [List.find?_isSome]
    exact ⟨v, hv, by simp [hk, ha]⟩
  exact Option.isSome_iff_exists.1 this

theorem firstBefore_none (T : Time) (k : String) (vs : List ObjectVersion)
    (h : ∀ v ∈ vs, v.Key = k → T.After v.LastModified = false) :
    firstBefore T k vs = none := by
  unfold firstBefore
  rw [List.find?_eq_none]
  intro v hv
  by_cases hk : v.Key = k
  · simp [hk, h v hv hk]
  · simp [hk]

theorem Time.After_irrefl (t : Time) : t.After t = false := by
  simp [Time.After]

theorem restoreLoop_selected_take {σ : Type} (svc : S3 σ) (bucket : String) (T : Time)
    (vs : List ObjectVersion) (w : σ) :
    (restoreLoop svc bucket T vs [] w).selected
      = (specSelect T vs []).take (restoreLoop svc bucket T vs [] w).calls.length := by
  have h := restoreLoop_eq_specApplyTargets svc bucket T vs [] w
  simp only [List.map_nil] at h
  rw [h]
  exact specApplyTargets_selected_take svc bucket _ w

theorem restoreLoop_selected_of_not_failed {σ : Type} (svc : S3 σ) (bucket : String)
    (T : Time) (vs : List ObjectVersion) (w : σ)
    (hok : (restoreLoop svc bucket T vs [] w).failed = false) :
    (restoreLoop svc bucket T vs [] w).selected = specSelect T vs [] := by
  have h := restoreLoop_eq_specApplyTargets svc bucket T vs [] w
  simp only [List.map_nil] at h
  rw [h] at hok ⊢
  exact specApplyTargets_selected_of_not_failed svc bucket _ w hok

theorem restoreLoop_selected_mem {σ : Type} (svc : S3 σ) (bucket : String) (T : Time)
    (vs : List ObjectVersion) (w : σ) (v : ObjectVersion)
    (h : v ∈ (restoreLoop svc bucket T vs [] w).selected) :
    v ∈ vs ∧ T.After v.LastModified = true := by
  rw [restoreLoop_selected_take] at h
  have := specSelect_mem T vs [] v (List.mem_of_mem_take h)
  exact ⟨this.1, this.2.1⟩

theorem restoreLoop_input_key {σ : Type} (svc : S3 σ) (bucket : String) (T : Time)
    (vs : List ObjectVersion) (restored : List (String × Bool)) (w : σ) :
    ∀ c ∈ (restoreLoop svc bucket T vs restored w).calls,
      c.input = copyParams bucket c.version := by
  induction vs generalizing restored w with
  | nil => simp [restoreLoop]
  | cons v vs ih =>
    rw [restoreLoop]
    split
    · exact ih _ _
    · split
      · rcases hc : svc.CopyObject (copyParams bucket v) w with ⟨res, w1⟩
        cases res with
        | error e => simp
        | ok resp =>
          intro c hcm
          simp only [List.mem_cons] at hcm
          rcases hcm with rfl | hcm
          · rfl
          · exact ih _ _ c hcm
      · exact ih _ _

/-! ## Claims on the selection -/

/-- C2: for every storage service, bucket, restore time and sequence of version
records (any order, duplicates allowed), the versions the restore loop selects have
pairwise distinct keys, and so have the copy requests it issues. -/
theorem restore_emits_at_most_one_target_per_key {σ : Type} (svc : S3 σ) (bucket : String)
    (T : Time) (vs : List ObjectVersion) (w : σ) :
    ((restoreLoop svc bucket T vs [] w).selected.map (fun v => v.Key)).Nodup
      ∧ ((restoreLoop svc bucket T vs [] w).calls.map (fun c => c.input.Key)).Nodup := by
  have h1 : ((restoreLoop svc bucket T vs [] w).selected.map (fun v => v.Key)).Nodup := by
    rw [restoreLoop_selected_take, List.map_take]
    exact (specSelect_nodup T vs []).sublist (List.take_sublist _ _)
  refine ⟨h1, ?_⟩
  have h2 : (restoreLoop svc bucket T vs [] w).calls.map (fun c => c.input.Key)
      = (restoreLoop svc bucket T vs [] w).selected.map (fun v => v.Key) := by
    simp only [LoopResult.selected, List.map_map]
    apply List.map_congr_left
    intro c hc
    simp [restoreLoop_input_key svc bucket T vs [] w c hc, copyParams]
  rw [h2]
  exact h1

/-- C3: the boundary is strict: every version the restore loop selects was modified
strictly before the restore time, so a record whose lastModified equals T is never
selected; and for one key with versions at 10:00, 09:00 and 08:00 and restore time
09:00 the selected version is the one at 08:00, whatever the storage answers. -/
theorem restore_boundary_is_strict {σ : Type} (svc : S3 σ) (bucket : String)
    (T : Time) (vs : List ObjectVersion) (w : σ) :
    (∀ v ∈ (restoreLoop svc bucket T vs [] w).selected,
        T.After v.LastModified = true ∧ v.LastModified ≠ T)
      ∧ (restoreLoop svc bucket nineOClock boundaryVersions [] w).selected
          = [versionAt "k" "v1" 28800] := by
  constructor
  · intro v hv
    have h := (restoreLoop_selected_mem svc bucket T vs w v hv).2
    refine ⟨h, ?_⟩
    intro heq
    rw [heq, Time.After_irrefl] at h
    exact Bool.false_ne_true h
  · have hsel : specSelect nineOClock boundaryVersions [] = [versionAt "k" "v1" 28800] := by
      decide
    rw [restoreLoop_eq_specApplyTargets]
    simp only [List.map_nil, hsel, specApplyTargets]
    rcases hc : svc.CopyObject (copyParams bucket (versionAt "k" "v1" 28800)) w with ⟨res, w1⟩
    cases res <;> simp [LoopResult.selected, specApplyTargets]

/-- C4: for every storage service, restore time and sequence of version records (any
order), a key none of whose records was modified strictly before T is never selected
and no copy is issued for it; if the sequence holds records of that key only, no copy
is issued at all; and an empty sequence gives no copy and no failure. -/
theorem restore_never_emits_key_without_older_version {σ : Type} (svc : S3 σ)
    (bucket : String) (T : Time) (vs : List ObjectVersion) (w : σ) (k : String)
    (h : ∀ v ∈ vs, v.Key = k → T.After v.LastModified = false) :
    (∀ v ∈ (restoreLoop svc bucket T vs [] w).selected, v.Key ≠ k)
      ∧ (∀ c ∈ (restoreLoop svc bucket T vs [] w).calls, c.input.Key ≠ k)
      ∧ ((∀ v ∈ vs, v.Key = k) → (restoreLoop svc bucket T vs [] w).calls = [])
      ∧ (restoreLoop svc bucket T [] [] w).calls = []
      ∧ (restoreLoop svc bucket T [] [] w).failed = false := by
  have h1 : ∀ v ∈ (restoreLoop svc bucket T vs [] w).selected, v.Key ≠ k := by
    intro v hv hk
    have hm := restoreLoop_selected_mem svc bucket T vs w v hv
    have := h v hm.1 hk
    rw [hm.2] at this
    exact Bool.noConfusion this
  refine ⟨h1, ?_, ?_, rfl, rfl⟩
  · intro c hc
    rw [restoreLoop_input_key svc bucket T vs [] w c hc]
    exact h1 c.version (List.mem_map.2 ⟨c, hc, rfl⟩)
  · intro hall
    cases hcalls : (restoreLoop svc bucket T vs [] w).calls with
    | nil => rfl
    | cons c cs =>
      exfalso
      have hc : c ∈ (restoreLoop svc bucket T vs [] w).calls := by
        rw [hcalls]; exact List.mem_cons_self _ _
      have hv : c.version ∈ (restoreLoop svc bucket T vs [] w).selected :=
        List.mem_map.2 ⟨c, hc, rfl⟩
      exact h1 _ hv (hall _ (restoreLoop_selected_mem svc bucket T vs w _ hv).1)

/-- Witness of C4: the key with versions at 10:00 and 11:00 only, restore time 09:00. -/
theorem restore_never_emits_key_without_older_version_witness :
    (∀ v ∈ lateVersions, v.Key = "k" → nineOClock.After v.LastModified = false)
      ∧ (∀ v ∈ lateVersions, v.Key = "k")
      ∧ (restoreLoop (failingCopyService "" lateVersions) "b" nineOClock lateVersions [] ()).calls
          = [] :=
  ⟨by decide, by decide,
    (restore_never_emits_key_without_older_version (failingCopyService "" lateVersions) "b"
      nineOClock lateVersions () "k" (by decide)).2.2.1 (by decide)⟩

/-- C1 (as stated, refuted): on the example of the specification (newest first per
key, key `c` has a record before T) with a storage whose copy of key `a` fails, the
loop ends at that copy: the targets are (a, v2) only and no record of key `c` is
ever selected. -/
theorem restore_selection_stops_at_failed_copy :
    NewestFirst exampleVersions
      ∧ (∃ v ∈ exampleVersions, v.Key = "c" ∧ exampleT.After v.LastModified = true)
      ∧ (restoreLoop (failingCopyService "a" exampleVersions) "b" exampleT exampleVersions
            [] ()).selected.filter (fun v => decide (v.Key = "c")) = []
      ∧ (restoreLoop (failingCopyService "a" exampleVersions) "b" exampleT exampleVersions
            [] ()).selected.map (fun v => (v.Key, v.VersionId)) = [("a", "v2")] := by
  decide

/-- C1 (amended): for every storage service, restore time T and sequence of version
records in which each key's records appear newest first, if no copy of the run fails
then for each key that has a record modified strictly before T the restore loop
selects exactly one record of that key, a record of the sequence modified strictly
before T and not earlier than any record of that key modified strictly before T; on
the example of the specification the targets are then exactly (a, v2) and (c, v2). -/
theorem restore_selects_version_current_before_T {σ : Type} (svc : S3 σ) (bucket : String)
    (T : Time) (vs : List ObjectVersion) (w : σ) (hord : NewestFirst vs)
    (hok : (restoreLoop svc bucket T vs [] w).failed = false) :
    (∀ k, (∃ v ∈ vs, v.Key = k ∧ T.After v.LastModified = true) →
        ∃ v, (restoreLoop svc bucket T vs [] w).selected.filter (fun x => decide (x.Key = k))
              = [v]
          ∧ v ∈ vs ∧ v.Key = k ∧ T.After v.LastModified = true
          ∧ ∀ u ∈ vs, u.Key = k → T.After u.LastModified = true →
              u.LastModified.After v.LastModified = false)
      ∧ (vs = exampleVersions → T = exampleT →
          (restoreLoop svc bucket T vs [] w).selected.map (fun v => (v.Key, v.VersionId))
            = [("a", "v2"), ("c", "v2")]) := by
  have hsel := restoreLoop_selected_of_not_failed svc bucket T vs w hok
  constructor
  · intro k hq
    rcases firstBefore_isSome T k vs hq with ⟨v, hv⟩
    rcases firstBefore_some T k vs v hv with ⟨l1, l2, hvs, hvk, hva, hl1⟩
    refine ⟨v, ?_, ?_, hvk, hva, ?_⟩
    · rw [hsel, specSelect_filter, hv]
      simp
    · rw [hvs]; simp
    · intro u hu huk hua
      rw [hvs] at hu hord
      rcases List.mem_append.1 hu with h1 | h2
      · have := hl1 u h1 huk
        rw [hua] at this
        exact Bool.noConfusion this
      · rcases List.mem_cons.1 h2 with rfl | h3
        · exact Time.After_irrefl _
        · have hp := (List.pairwise_append.1 hord).2.1
          exact (List.pairwise_cons.1 hp).1 u h3 (by rw [hvk, huk])
  · intro hvs hT
    rw [hsel, hvs, hT]
    decide

/-- Witness of C1 (amended): the example of the specification on a storage whose
copies succeed. -/
theorem restore_selects_version_current_before_T_witness :
    NewestFirst exampleVersions
      ∧ (restoreLoop (failingCopyService "" exampleVersions) "b" exampleT exampleVersions
            [] ()).failed = false
      ∧ (restoreLoop (failingCopyService "" exampleVersions) "b" exampleT exampleVersions
            [] ()).selected.map (fun v => (v.Key, v.VersionId)) = [("a", "v2"), ("c", "v2")] :=
  ⟨by decide, by decide,
    (restore_selects_version_current_before_T (failingCopyService "" exampleVersions) "b"
      exampleT exampleVersions () (by decide) (by decide)).2 rfl rfl⟩

/-- C5 (as stated, refuted): two interleavings of the same per-key sequences, on a
storage whose copy of key `a` fails: with key `a` listed first the run ends before
key `c` is reached and selects nothing for it, with key `c` listed first its version
is selected. -/
theorem restore_interleaving_changes_selection_after_failed_copy :
    (∀ k, twoKeysAC.filter (fun v => decide (v.Key = k))
        = twoKeysCA.filter (fun v => decide (v.Key = k)))
      ∧ NewestFirst twoKeysAC ∧ NewestFirst twoKeysCA
      ∧ (restoreLoop (failingCopyService "a" twoKeysAC) "b" nineOClock twoKeysAC
            [] ()).selected.filter (fun v => decide (v.Key = "c")) = []
      ∧ (restoreLoop (failingCopyService "a" twoKeysAC) "b" nineOClock twoKeysCA
            [] ()).selected.filter (fun v => decide (v.Key = "c"))
          = [versionAt "c" "v1" 28800] := by
  refine ⟨?_, by decide, by decide, by decide, by decide⟩
  intro k
  by_cases ha : k = "a"
  · subst ha; decide
  · by_cases hc : k = "c"
    · subst hc; decide
    · simp [twoKeysAC, twoKeysCA, versionAt, List.filter_cons, Ne.symm ha, Ne.symm hc]

/-- C5 (amended): for every storage service, restore time T and two sequences of
version records that are interleavings of the same per-key subsequences, if no copy
fails in either run then the records selected for each key (or the absence of a
selection) are the same in both runs. -/
theorem restore_selection_independent_of_interleaving {σ : Type} (svc : S3 σ)
    (bucket : String) (T : Time) (vs1 vs2 : List ObjectVersion) (w1 w2 : σ)
    (hsame : ∀ k, vs1.filter (fun v => decide (v.Key = k))
        = vs2.filter (fun v => decide (v.Key = k)))
    (hok1 : (restoreLoop svc bucket T vs1 [] w1).failed = false)
    (hok2 : (restoreLoop svc bucket T vs2 [] w2).failed = false) :
    ∀ k, (restoreLoop svc bucket T vs1 [] w1).selected.filter (fun v => decide (v.Key = k))
      = (restoreLoop svc bucket T vs2 [] w2).selected.filter (fun v => decide (v.Key = k)) := by
  intro k
  rw [restoreLoop_selected_of_not_failed svc bucket T vs1 w1 hok1,
    restoreLoop_selected_of_not_failed svc bucket T vs2 w2 hok2,
    specSelect_filter, specSelect_filter,
    firstBefore_eq_filter, firstBefore_eq_filter, hsame k]

/-- Witness of C5 (amended): the example listing and an interleaving of it, on a
storage whose copies succeed. -/
theorem restore_selection_independent_of_interleaving_witness :
    (restoreLoop (failingCopyService "" []) "b" exampleT exampleVersions [] ()).failed = false
      ∧ (restoreLoop (failingCopyService "" []) "b" exampleT exampleInterleaved [] ()).failed
          = false
      ∧ ∀ k, (restoreLoop (failingCopyService "" []) "b" exampleT exampleVersions
              [] ()).selected.filter (fun v => decide (v.Key = k))
          = (restoreLoop (failingCopyService "" []) "b" exampleT exampleInterleaved
              [] ()).selected.filter (fun v => decide (v.Key = k)) :=
  ⟨by decide, by decide,
    restore_selection_independent_of_interleaving (failingCopyService "" []) "b" exampleT
      exampleVersions exampleInterleaved () ()
      (by
        intro k
        by_cases ha : k = "a"
        · subst ha; decide
        · by_cases hc : k = "c"
          · subst hc; decide
          · simp [exampleVersions, exampleInterleaved, versionAt, List.filter_cons,
              Ne.symm ha, Ne.symm hc])
      (by decide) (by decide)⟩

/-! ## The whole run -/

theorem specApplyTargets_calls_ok {σ : Type} (svc : S3 σ) (bucket : String)
    (l : List ObjectVersion) (w : σ) :
    (∀ c ∈ (specApplyTargets svc bucket l w).calls.dropLast, c.ok = true)
      ∧ ((specApplyTargets svc bucket l w).failed = true →
          ∃ c, (specApplyTargets svc bucket l w).calls.getLast? = some c ∧ c.ok = false)
      ∧ ((specApplyTargets svc bucket l w).failed = false →
          ∀ c ∈ (specApplyTargets svc bucket l w).calls, c.ok = true) := by
  induction l generalizing w with
  | nil => simp [specApplyTargets]
  | cons v vs ih =>
    rw [specApplyTargets]
    rcases hc : svc.CopyObject (copyParams bucket v) w with ⟨res, w1⟩
    cases res with
    | error e => simp [CopyCall.ok]
    | ok resp =>
      obtain ⟨h1, h2, h3⟩ := ih w1
      simp only []
      refine ⟨?_, ?_, ?_⟩
      · intro c hcm
        cases hcalls : (specApplyTargets svc bucket vs w1).calls with
        | nil => rw [hcalls] at hcm; simp at hcm
        | cons a as =>
          rw [hcalls, List.dropLast_cons₂] at hcm
          rcases List.mem_cons.1 hcm with rfl | hcm
          · rfl
          · exact h1 c (by rw [hcalls]; exact hcm)
      · intro hf
        rcases h2 hf with ⟨c, hlast, hcok⟩
        refine ⟨c, ?_, hcok⟩
        cases hcalls : (specApplyTargets svc bucket vs w1).calls with
        | nil => rw [hcalls] at hlast; simp at hlast
        | cons a as =>
          rw [hcalls] at hlast
          rw [List.getLast?_cons_cons]
          exact hlast
      · intro hf c hcm
        rcases List.mem_cons.1 hcm with rfl | hcm
        · rfl
        · exact h3 hf c hcm

/-- Function `main` on a restore command with bucket and timestamp given. -/
theorem main_restore {σ : Type} (svc : S3 σ) (bkt ts prx : String) (w : σ)
    (hb : bkt ≠ "") (ht : ts ≠ "") :
    main none svc (.restore bkt ts prx) w
      = match svc.ListObjectVersions ⟨bkt, prx, none, none⟩ w with
        | (.error _, w1) => ⟨logFatalExit, [⟨bkt, prx, none, none⟩], [], w1⟩
        | (.ok listVersionResp, w1) =>
          match parseTimestamp ts with
          | .error _ => ⟨logFatalExit, [⟨bkt, prx, none, none⟩], [], w1⟩
          | .ok restoreTime =>
            ⟨if (restoreLoop svc bkt restoreTime listVersionResp.Versions [] w1).failed
                then logFatalExit else 0,
              [⟨bkt, prx, none, none⟩],
              (restoreLoop svc bkt restoreTime listVersionResp.Versions [] w1).calls,
              (restoreLoop svc bkt restoreTime listVersionResp.Versions [] w1).world⟩ := by
  simp [main, parseArguments, hb, ht, ParsedArgs.arg, List.lookup]

theorem specApplyTargets_outputs {σ : Type} (svc : S3 σ) (bucket : String)
    (l : List ObjectVersion) (w : σ) :
    ∀ c ∈ (specApplyTargets svc bucket l w).calls,
      ∃ w0, (svc.CopyObject c.input w0).1 = c.output := by
  induction l generalizing w with
  | nil => simp [specApplyTargets]
  | cons v vs ih =>
    rw [specApplyTargets]
    rcases hc : svc.CopyObject (copyParams bucket v) w with ⟨res, w1⟩
    cases res with
    | error e =>
      intro c hcm
      simp only [List.mem_singleton] at hcm
      subst hcm
      exact ⟨w, by rw [hc]⟩
    | ok resp =>
      intro c hcm
      simp only [List.mem_cons] at hcm
      rcases hcm with rfl | hcm
      · exact ⟨w, by rw [hc]⟩
      · exact ih w1 c hcm

/-- C10: in a restore run with bucket and timestamp given, if the listing call fails
no copy is issued and the run ends with exit status 1; if it answers and the
timestamp parses to T, the run is the restorer applied to the selector's targets for
the listed versions: starting from the state the listing left, each target in
emission order is sent to the storage as a copy in place (source
`bucket/key?versionId=id`, destination the same bucket and key), the answer of the
storage is what the run records, the first copy the storage fails is the last one
issued and the exit status is then 1, and with no failed copy every target is copied
and the exit status is 0. -/
theorem restore_run_copies_targets_until_first_failure {σ : Type} (svc : S3 σ)
    (bkt ts prx : String) (w : σ) (hb : bkt ≠ "") (ht : ts ≠ "") :
    (∀ e w1, svc.ListObjectVersions ⟨bkt, prx, none, none⟩ w = (.error e, w1) →
        (main none svc (.restore bkt ts prx) w).copyCalls = []
          ∧ (main none svc (.restore bkt ts prx) w).exitCode = 1
          ∧ (main none svc (.restore bkt ts prx) w).world = w1)
      ∧ (∀ resp w1 T, svc.ListObjectVersions ⟨bkt, prx, none, none⟩ w = (.ok resp, w1) →
          parseTimestamp ts = .ok T →
          (main none svc (.restore bkt ts prx) w).copyCalls
              = (specApplyTargets svc bkt (specSelect T resp.Versions []) w1).calls
            ∧ (main none svc (.restore bkt ts prx) w).world
              = (specApplyTargets svc bkt (specSelect T resp.Versions []) w1).world
            ∧ (main none svc (.restore bkt ts prx) w).exitCode
              = (if (specApplyTargets svc bkt (specSelect T resp.Versions []) w1).failed
                  then 1 else 0)
            ∧ (main none svc (.restore bkt ts prx) w).copyCalls.map (fun c => c.input)
              = ((specSelect T resp.Versions []).take
                  (main none svc (.restore bkt ts prx) w).copyCalls.length).map
                  (fun v => ⟨bkt, bkt ++ "/" ++ v.Key ++ "?versionId=" ++ v.VersionId, v.Key⟩)
            ∧ (∀ c ∈ (main none svc (.restore bkt ts prx) w).copyCalls,
                ∃ w0, (svc.CopyObject c.input w0).1 = c.output)
            ∧ (∀ c ∈ (main none svc (.restore bkt ts prx) w).copyCalls.dropLast, c.ok = true)
            ∧ ((main none svc (.restore bkt ts prx) w).copyCalls.length
                  < (specSelect T resp.Versions []).length →
                ∃ c, (main none svc (.restore bkt ts prx) w).copyCalls.getLast? = some c
                  ∧ c.ok = false)
            ∧ ((main none svc (.restore bkt ts prx) w).exitCode = 1 →
                ∃ c, (main none svc (.restore bkt ts prx) w).copyCalls.getLast? = some c
                  ∧ c.ok = false)
            ∧ ((main none svc (.restore bkt ts prx) w).exitCode = 0 →
                (main none svc (.restore bkt ts prx) w).copyCalls.length
                    = (specSelect T resp.Versions []).length
                  ∧ ∀ c ∈ (main none svc (.restore bkt ts prx) w).copyCalls, c.ok = true)) := by
  rw [main_restore svc bkt ts prx w hb ht]
  constructor
  · intro e w1 hl
    rw [hl]
    exact ⟨rfl, rfl, rfl⟩
  · intro resp w1 T hl hT
    rw [hl]
    simp only [hT]
    have happ := restoreLoop_eq_specApplyTargets svc bkt T resp.Versions [] w1
    simp only [List.map_nil] at happ
    have htake := restoreLoop_selected_take svc bkt T resp.Versions w1
    have hkey := restoreLoop_input_key svc bkt T resp.Versions [] w1
    have hout := specApplyTargets_outputs svc bkt (specSelect T resp.Versions []) w1
    obtain ⟨h1, h2, h3⟩ := specApplyTargets_calls_ok svc bkt (specSelect T resp.Versions []) w1
    rw [← happ] at h1 h2 h3 hout
    have hlenOf : (restoreLoop svc bkt T resp.Versions [] w1).failed = false →
        (restoreLoop svc bkt T resp.Versions [] w1).calls.length
          = (specSelect T resp.Versions []).length := by
      intro hf
      have hsel := restoreLoop_selected_of_not_failed svc bkt T resp.Versions w1 hf
      have hlen : (restoreLoop svc bkt T resp.Versions [] w1).selected.length
          = (restoreLoop svc bkt T resp.Versions [] w1).calls.length := by
        simp [LoopResult.selected]
      rw [hsel] at hlen
      exact hlen.symm
    refine ⟨by rw [happ], by rw [happ], by rw [happ]; rfl, ?_, hout, h1, ?_, ?_, ?_⟩
    · have : (restoreLoop svc bkt T resp.Versions [] w1).calls.map (fun c => c.input)
          = (restoreLoop svc bkt T resp.Versions [] w1).selected.map (copyParams bkt) := by
        simp only [LoopResult.selected, List.map_map]
        apply List.map_congr_left
        intro c hc
        simp [hkey c hc]
      rw [this, htake]
      rfl
    · intro hlt
      apply h2
      by_contra hnf
      have hf : (restoreLoop svc bkt T resp.Versions [] w1).failed = false := by
        simpa using hnf
      have := hlenOf hf
      omega
    · intro hex
      apply h2
      by_contra hnf
      have hf : (restoreLoop svc bkt T resp.Versions [] w1).failed = false := by
        simpa using hnf
      rw [hf] at hex
      simp at hex
    · intro hex
      have hf : (restoreLoop svc bkt T resp.Versions [] w1).failed = false := by
        cases hfv : (restoreLoop svc bkt T resp.Versions [] w1).failed with
        | false => rfl
        | true => rw [hfv] at hex; simp [logFatalExit] at hex
      exact ⟨hlenOf hf, h3 hf⟩

/-- Witness of C10: the example of the specification.  On a storage whose copy of key
`a` fails, that copy is the only one issued, it is recorded as failed and the exit
status is 1; on a storage whose copy of key `c` fails, the copy of `a` succeeds, the
copy of `c` is issued, fails and is the last, with exit status 1. -/
theorem restore_run_copies_targets_until_first_failure_witness :
    ((main none (failingCopyService "a" exampleVersions)
          (.restore "b" "1622505600" "") ()).copyCalls.map (fun c => (c.input, c.ok))
        = [(⟨"b", "b/a?versionId=v2", "a"⟩, false)]
      ∧ (main none (failingCopyService "a" exampleVersions)
          (.restore "b" "1622505600" "") ()).exitCode = 1)
    ∧ ((main none (failingCopyService "c" exampleVersions)
          (.restore "b" "1622505600" "") ()).copyCalls.map (fun c => (c.input, c.ok))
        = [(⟨"b", "b/a?versionId=v2", "a"⟩, true), (⟨"b", "b/c?versionId=v2", "c"⟩, false)]
      ∧ (main none (failingCopyService "c" exampleVersions)
          (.restore "b" "1622505600" "") ()).exitCode = 1) := by
  have ha := (restore_run_copies_targets_until_first_failure
      (failingCopyService "a" exampleVersions) "b" "1622505600" "" ()
      (by decide) (by decide)).2 ⟨exampleVersions, false, none, none⟩ () exampleT rfl rfl
  have hc := (restore_run_copies_targets_until_first_failure
      (failingCopyService "c" exampleVersions) "b" "1622505600" "" ()
      (by decide) (by decide)).2 ⟨exampleVersions, false, none, none⟩ () exampleT rfl rfl
  refine ⟨⟨?_, ?_⟩, ⟨?_, ?_⟩⟩
  · rw [ha.1]; decide
  · rw [ha.2.2.1]; decide
  · rw [hc.1]; decide
  · rw [hc.2.2.1]; decide

/-- C6 (as stated, refuted): on a storage whose listing has two pages, the drained
listing holds the record of key `c` (second page, modified before T), but the restore
run sends the one listing request without markers and its loop selects the record of
the first page only. -/
theorem restore_run_reads_first_page_only :
    (specDrainPages pagedService "b" "" 2 none none ()).1
        = .ok [versionAt "a" "v1" 28800, versionAt "c" "v1" 28800]
      ∧ nineOClock.After (versionAt "c" "v1" 28800).LastModified = true
      ∧ (main none pagedService (.restore "b" "32400" "") ()).exitCode = 0
      ∧ (main none pagedService (.restore "b" "32400" "") ()).listCalls
          = [⟨"b", "", none, none⟩]
      ∧ (main none pagedService (.restore "b" "32400" "") ()).copyCalls.map (fun c => c.version)
          = [versionAt "a" "v1" 28800] :=
  ⟨rfl, by decide, by decide, by decide, by decide⟩

/-- C6 (amended): a restore run with bucket and timestamp given sends exactly one
listing request, for (bucket, prefix) and without continuation markers, and its
selection loop runs over the versions of that one response: when the timestamp parses
to T, the copies of the run are those of the loop over the versions of the response,
and every selected version is a record of that response. -/
theorem restore_run_lists_once {σ : Type} (svc : S3 σ) (bkt ts prx : String) (w : σ)
    (hb : bkt ≠ "") (ht : ts ≠ "") :
    (main none svc (.restore bkt ts prx) w).listCalls = [⟨bkt, prx, none, none⟩]
      ∧ (∀ resp w1 T, svc.ListObjectVersions ⟨bkt, prx, none, none⟩ w = (.ok resp, w1) →
          parseTimestamp ts = .ok T →
          (main none svc (.restore bkt ts prx) w).copyCalls.map (fun c => c.version)
              = (restoreLoop svc bkt T resp.Versions [] w1).selected
            ∧ ∀ c ∈ (main none svc (.restore bkt ts prx) w).copyCalls,
                c.version ∈ resp.Versions) := by
  rw [main_restore svc bkt ts prx w hb ht]
  constructor
  · rcases hl : svc.ListObjectVersions ⟨bkt, prx, none, none⟩ w with ⟨res, w1⟩
    cases res with
    | error e => rfl
    | ok resp =>
      simp only []
      cases parseTimestamp ts <;> rfl
  · intro resp w1 T hl hT
    rw [hl]
    simp only [hT]
    refine ⟨rfl, ?_⟩
    intro c hc
    exact (restoreLoop_selected_mem svc bkt T resp.Versions w1 c.version
      (List.mem_map.2 ⟨c, hc, rfl⟩)).1

/-- Witness of C6 (amended): the storage with two pages. -/
theorem restore_run_lists_once_witness :
    (main none pagedService (.restore "b" "32400" "") ()).listCalls = [⟨"b", "", none, none⟩] :=
  (restore_run_lists_once pagedService "b" "32400" "" () (by decide) (by decide)).1

/-- C7 (as stated, refuted): the timestamp `abc` does not parse, and the restore
command ends with exit status 1, not 2. -/
theorem restore_invalid_timestamp_exits_one :
    parseTimestamp "abc" = .error .ErrSyntax
      ∧ (main none (failingCopyService "" exampleVersions) (.restore "b" "abc" "") ()).exitCode
          = 1
      ∧ (main none (failingCopyService "" exampleVersions) (.restore "b" "abc" "") ()).exitCode
          ≠ 2 :=
  ⟨rfl, by decide, by decide⟩

/-- C7 (amended): for every timestamp string that fails to parse: if it is not empty
and the bucket is given, the restore command ends in a fatal error with the exit
status of `log.Fatal`, which is 1, and issues no copy, whatever the storage and the
session do; if it is empty, the command ends with exit status 2, the usage error. -/
theorem restore_invalid_timestamp_is_fatal {σ : Type} (svc : S3 σ) (bkt ts prx : String)
    (w : σ) (hfail : ∃ e, parseTimestamp ts = .error e) :
    (bkt ≠ "" → ts ≠ "" → ∀ sessionError,
        (main sessionError svc (.restore bkt ts prx) w).exitCode = 1
          ∧ (main sessionError svc (.restore bkt ts prx) w).copyCalls = [])
      ∧ (ts = "" → (main none svc (.restore bkt ts prx) w).exitCode = 2) := by
  rcases hfail with ⟨e, he⟩
  constructor
  · intro hb ht sessionError
    cases sessionError with
    | some err => exact ⟨rfl, rfl⟩
    | none =>
      rw [main_restore svc bkt ts prx w hb ht]
      rcases hl : svc.ListObjectVersions ⟨bkt, prx, none, none⟩ w with ⟨res, w1⟩
      cases res with
      | error e1 => exact ⟨rfl, rfl⟩
      | ok resp =>
        simp [he, logFatalExit]
  · intro ht
    simp [main, parseArguments, ht]

/-- Witness of C7 (amended): the timestamp `abc`. -/
theorem restore_invalid_timestamp_is_fatal_witness :
    (∃ e, parseTimestamp "abc" = .error e)
      ∧ (main none (failingCopyService "" exampleVersions) (.restore "b" "abc" "") ()).exitCode
          = 1 :=
  ⟨⟨.ErrSyntax, rfl⟩,
    ((restore_invalid_timestamp_is_fatal (failingCopyService "" exampleVersions) "b" "abc" ""
      () ⟨.ErrSyntax, rfl⟩).1 (by decide) (by decide) none).1⟩

/-! ## The timestamp -/

theorem digitVal_of_digit (d : Char) (h : isDecimalDigit d = true) :
    digitVal d = some (d.toNat - '0'.toNat) ∧ d.toNat - '0'.toNat < 10 := by
  simp only [isDecimalDigit, decide_eq_true_eq] at h
  constructor
  · simp [digitVal, h]
  · have h2 : d.toNat ≤ 57 := h.2
    have : '0'.toNat = 48 := rfl
    omega

theorem digitVal_of_not_digit (d : Char) (h : ¬ isDecimalDigit d = true) :
    digitVal d = none ∨ ∃ v, digitVal d = some v ∧ 10 ≤ v := by
  simp only [isDecimalDigit, decide_eq_true_eq] at h
  unfold digitVal
  rw [if_neg h]
  split
  · exact Or.inr ⟨_, rfl, Nat.le_add_left _ _⟩
  · split
    · exact Or.inr ⟨_, rfl, Nat.le_add_left _ _⟩
    · exact Or.inl rfl

theorem le_decimalValueFrom (n : Nat) (ds : List Char) : n ≤ decimalValueFrom n ds := by
  induction ds generalizing n with
  | nil => exact Nat.le_refl _
  | cons d ds ih =>
    have := ih (10 * n + (d.toNat - '0'.toNat))
    simp only [decimalValueFrom, List.foldl_cons] at this ⊢
    omega

theorem parseUintLoop_digits (ds : List Char) (n : Nat) (hn : n ≤ maxUint64)
    (hd : ds.all isDecimalDigit = true) :
    parseUintLoop 10 (maxUint64 / 10 + 1) (2 ^ 64 - 1) ds n
      = if decimalValueFrom n ds ≤ maxUint64 then (decimalValueFrom n ds, none)
        else (maxUint64, some .ErrRange) := by
  induction ds generalizing n with
  | nil => simp [parseUintLoop, decimalValueFrom, hn]
  | cons d ds ih =>
    simp only [List.all_cons, Bool.and_eq_true] at hd
    obtain ⟨hv, hlt⟩ := digitVal_of_digit d hd.1
    have hmono := le_decimalValueFrom (10 * n + (d.toNat - '0'.toNat)) ds
    have hstep : decimalValueFrom n (d :: ds)
        = decimalValueFrom (10 * n + (d.toNat - '0'.toNat)) ds := rfl
    rw [hstep]
    generalize hvdef : d.toNat - '0'.toNat = v at hv hlt hmono ⊢
    rw [parseUintLoop, hv]
    simp only [maxUint64] at hn hmono ⊢
    have hnl : ¬ v ≥ 10 := by omega
    simp only [hnl, if_false]
    by_cases hc : n ≥ (2 ^ 64 - 1) / 10 + 1
    · rw [if_pos hc]
      have : ¬ decimalValueFrom (10 * n + v) ds ≤ 2 ^ 64 - 1 := by
        norm_num at hc ⊢; omega
      rw [if_neg this]
    · rw [if_neg hc]
      have hn0 : n * 10 % 2 ^ 64 = n * 10 := by
        apply Nat.mod_eq_of_lt
        norm_num at hc ⊢; omega
      simp only [hn0]
      by_cases hov : n * 10 + v < 2 ^ 64
      · have hn1 : (n * 10 + v) % 2 ^ 64 = n * 10 + v := Nat.mod_eq_of_lt hov
        have hcond : ¬ (n * 10 + v < n * 10 ∨ n * 10 + v > 2 ^ 64 - 1) := by
          norm_num at hov ⊢; omega
        rw [hn1, if_neg hcond]
        have := ih (n * 10 + v) (by simp only [maxUint64]; norm_num at hov ⊢; omega) hd.2
        simp only [maxUint64] at this
        rw [Nat.mul_comm 10 n]
        exact this
      · have hn1 : (n * 10 + v) % 2 ^ 64 = n * 10 + v - 2 ^ 64 := by
          rw [Nat.mod_eq_sub_mod (by omega)]
          apply Nat.mod_eq_of_lt
          norm_num at hc hov ⊢; omega
        have hcond : (n * 10 + v - 2 ^ 64 < n * 10 ∨ n * 10 + v - 2 ^ 64 > 2 ^ 64 - 1) := by
          left; norm_num at hov ⊢; omega
        rw [hn1, if_pos hcond]
        have : ¬ decimalValueFrom (10 * n + v) ds ≤ 2 ^ 64 - 1 := by
          norm_num at hov ⊢; omega
        rw [if_neg this]

theorem parseUintLoop_not_digits (ds : List Char) (n : Nat)
    (hd : ¬ ds.all isDecimalDigit = true) :
    (parseUintLoop 10 (maxUint64 / 10 + 1) (2 ^ 64 - 1) ds n).2 = some .ErrSyntax
      ∨ parseUintLoop 10 (maxUint64 / 10 + 1) (2 ^ 64 - 1) ds n = (maxUint64, some .ErrRange) := by
  induction ds generalizing n with
  | nil => simp at hd
  | cons d ds ih =>
    rw [parseUintLoop]
    by_cases hdd : isDecimalDigit d = true
    · have hrest : ¬ ds.all isDecimalDigit = true := by
        intro h; apply hd; simp [hdd, h]
      obtain ⟨hv, hlt⟩ := digitVal_of_digit d hdd
      rw [hv]
      simp only []
      split
      · exact Or.inl rfl
      · split
        · exact Or.inr rfl
        · split
          · exact Or.inr rfl
          · exact ih _ hrest
    · rcases digitVal_of_not_digit d hdd with h | ⟨v, h, hv⟩
      · rw [h]; exact Or.inl rfl
      · rw [h]
        simp [hv]

theorem wrapInt64_of_range (x : Int) (h1 : -2 ^ 63 ≤ x) (h2 : x ≤ 2 ^ 63 - 1) :
    wrapInt64 x = x := by
  unfold wrapInt64
  norm_num at h1 h2 ⊢
  omega

/-- The part of `ParseInt` after the sign is taken off, `ds` being the digits. -/
theorem ParseInt_cons (s : String) (c : Char) (rest ds : List Char) (h : s.data = c :: rest)
    (hds : ds = if c = '+' then rest else if c = '-' then rest else c :: rest) :
    ParseInt s =
      (match (ParseUint ds).2 with
      | some .ErrSyntax => (0, some .ErrSyntax)
      | _ =>
        if !decide (c = '-') && decide ((ParseUint ds).1 ≥ 2 ^ 63) then
          (((2 ^ 63 : Nat) : Int) - 1, some .ErrRange)
        else if decide (c = '-') && decide ((ParseUint ds).1 > 2 ^ 63) then
          (-((2 ^ 63 : Nat) : Int), some .ErrRange)
        else
          (if decide (c = '-') then wrapInt64 (-(wrapInt64 (ParseUint ds).1))
            else wrapInt64 (ParseUint ds).1, none)) := by
  subst hds
  unfold ParseInt
  rw [h]

theorem ParseUint_spec (ds : List Char) :
    (ds ≠ [] ∧ ds.all isDecimalDigit = true ∧ decimalValueFrom 0 ds ≤ maxUint64
        ∧ ParseUint ds = (decimalValueFrom 0 ds, none))
      ∨ ((ds = [] ∨ ¬ ds.all isDecimalDigit = true) ∧ (ParseUint ds).2 = some .ErrSyntax)
      ∨ ((ds = [] ∨ ¬ ds.all isDecimalDigit = true ∨ ¬ decimalValueFrom 0 ds ≤ maxUint64)
          ∧ ParseUint ds = (maxUint64, some .ErrRange)) := by
  cases ds with
  | nil => right; left; exact ⟨Or.inl rfl, rfl⟩
  | cons d ds =>
    have hu : ParseUint (d :: ds)
        = parseUintLoop 10 (maxUint64 / 10 + 1) (2 ^ 64 - 1) (d :: ds) 0 := rfl
    by_cases hd : (d :: ds).all isDecimalDigit = true
    · have := parseUintLoop_digits (d :: ds) 0 (Nat.zero_le _) hd
      by_cases hv : decimalValueFrom 0 (d :: ds) ≤ maxUint64
      · left
        rw [if_pos hv] at this
        exact ⟨List.cons_ne_nil _ _, hd, hv, hu.trans this⟩
      · right; right
        rw [if_neg hv] at this
        exact ⟨Or.inr (Or.inr hv), hu.trans this⟩
    · rcases parseUintLoop_not_digits (d :: ds) 0 hd with h | h
      · right; left
        exact ⟨Or.inr hd, by rw [hu]; exact h⟩
      · right; right
        exact ⟨Or.inr (Or.inl hd), hu.trans h⟩

theorem specIntegerOfString_cons (s : String) (c : Char) (rest ds : List Char)
    (h : s.data = c :: rest)
    (hds : ds = if c = '+' then rest else if c = '-' then rest else c :: rest) :
    specIntegerOfString s =
      if ds ≠ [] ∧ ds.all isDecimalDigit = true
      then some (if c = '-' then -(decimalValueFrom 0 ds : Int) else (decimalValueFrom 0 ds : Int))
      else none := by
  subst hds
  unfold specIntegerOfString
  rw [h]
  by_cases h1 : c = '+'
  · simp [h1]
  · by_cases h2 : c = '-'
    · simp [h2]
    · simp [h1, h2]

/-- `ParseInt` against the integer the string denotes. -/
theorem ParseInt_spec (s : String) :
    (∀ i, specIntegerOfString s = some i → -2 ^ 63 ≤ i → i ≤ 2 ^ 63 - 1 → ParseInt s = (i, none))
      ∧ (specIntegerOfString s = none → ∃ e, (ParseInt s).2 = some e)
      ∧ (∀ i, specIntegerOfString s = some i → (i < -2 ^ 63 ∨ 2 ^ 63 - 1 < i) →
          ∃ e, (ParseInt s).2 = some e) := by
  cases hs : s.data with
  | nil =>
    have h1 : specIntegerOfString s = none := by unfold specIntegerOfString; rw [hs]
    have h2 : ParseInt s = (0, some .ErrSyntax) := by unfold ParseInt; rw [hs]
    rw [h1, h2]
    simp
  | cons c rest =>
    rw [specIntegerOfString_cons s c rest _ hs rfl, ParseInt_cons s c rest _ hs rfl]
    generalize (if c = '+' then rest else if c = '-' then rest else c :: rest) = ds
    rcases ParseUint_spec ds with ⟨hne, hd, hv, hp⟩ | ⟨hbad, hp⟩ | ⟨hbad, hp⟩
    · rw [hp]
      simp only [hne, hd, ne_eq, not_false_eq_true, and_self, if_true]
      generalize decimalValueFrom 0 ds = val at hv
      simp only [maxUint64] at hv
      by_cases hneg : c = '-'
      · simp only [hneg, decide_True, Bool.not_true, Bool.false_and, Bool.true_and, if_true,
          decide_eq_true_eq, Option.some.injEq, Bool.false_eq_true, if_false]
        by_cases hbig : val > 2 ^ 63
        · simp only [hbig, if_true]
          refine ⟨?_, by simp, fun i hi hr => ⟨_, rfl⟩⟩
          intro i hi h1 h2
          exfalso
          norm_num at hbig h1 h2
          omega
        · simp only [hbig, if_false]
          refine ⟨?_, by simp, ?_⟩
          · intro i hi h1 h2
            have hw : wrapInt64 (-(wrapInt64 (val : Int))) = -(val : Int) := by
              unfold wrapInt64
              norm_num at hbig ⊢
              omega
            rw [hw, ← hi]
          · intro i hi hr
            exfalso
            norm_num at hbig hr
            omega
      · simp only [hneg, decide_False, Bool.not_false, Bool.false_and, Bool.true_and, if_false,
          decide_eq_true_eq, Option.some.injEq, Bool.false_eq_true]
        by_cases hbig : val ≥ 2 ^ 63
        · simp only [hbig, if_true]
          refine ⟨?_, by simp, fun i hi hr => ⟨_, rfl⟩⟩
          intro i hi h1 h2
          exfalso
          norm_num at hbig h1 h2
          omega
        · simp only [hbig, if_false]
          refine ⟨?_, by simp, ?_⟩
          · intro i hi h1 h2
            have hw : wrapInt64 (val : Int) = (val : Int) := by
              unfold wrapInt64
              norm_num at hbig ⊢
              omega
            rw [hw, ← hi]
          · intro i hi hr
            exfalso
            norm_num at hbig hr
            omega
    · have hnone : ¬ (ds ≠ [] ∧ ds.all isDecimalDigit = true) := by
        rintro ⟨h1, h2⟩
        rcases hbad with h | h
        · exact h1 h
        · exact h h2
      rw [if_neg hnone, hp]
      simp
    · rw [hp]
      have herr : ∃ e, (match (some NumError.ErrRange : Option NumError) with
          | some .ErrSyntax => ((0 : Int), some NumError.ErrSyntax)
          | _ =>
            if !decide (c = '-') && decide ((maxUint64, some NumError.ErrRange).1 ≥ 2 ^ 63) then (((2 ^ 63 : Nat) : Int) - 1, some .ErrRange)
            else if decide (c = '-') && decide ((maxUint64, some NumError.ErrRange).1 > 2 ^ 63) then (-((2 ^ 63 : Nat) : Int), some .ErrRange)
            else
              (if decide (c = '-') then wrapInt64 (-(wrapInt64 (maxUint64, some NumError.ErrRange).1)) else wrapInt64 (maxUint64, some NumError.ErrRange).1, none)).2 = some e := by
        by_cases hneg : c = '-'
        · simp [hneg, maxUint64]
        · simp [hneg, maxUint64]
      refine ⟨?_, fun _ => herr, fun _ _ _ => herr⟩
      intro i hi h1 h2
      exfalso
      by_cases hok : ds ≠ [] ∧ ds.all isDecimalDigit = true
      · rw [if_pos hok] at hi
        have hv : ¬ decimalValueFrom 0 ds ≤ maxUint64 := by
          rcases hbad with h | h | h
          · exact absurd h hok.1
          · exact absurd hok.2 h
          · exact h
        simp only [maxUint64] at hv
        injection hi with hi
        by_cases hneg : c = '-'
        · simp only [hneg, if_true] at hi
          norm_num at hv h1 h2
          omega
        · simp only [hneg, if_false] at hi
          norm_num at hv h1 h2
          omega
      · rw [if_neg hok] at hi
        exact Option.noConfusion hi

theorem parseTimestamp_error_iff (s : String) :
    (∃ e, parseTimestamp s = .error e) ↔ ∃ e, (ParseInt s).2 = some e := by
  unfold parseTimestamp
  rcases h : ParseInt s with ⟨i, err⟩
  cases err with
  | none => simp
  | some e => simp

/-- C8 (as stated, refuted): the string 9223372036854775807 denotes an integer of the
int64 range and parseTimestamp does not fail on it, but the instant it returns is not
that many seconds after the Unix epoch: the second count of `time.Unix` wrapped
around, and the result is not after a version written at the Unix epoch although the
integer is greater than that version's epoch seconds. -/
theorem parseTimestamp_wraps_near_max_int64 :
    specIntegerOfString "9223372036854775807" = some 9223372036854775807
      ∧ parseTimestamp "9223372036854775807" = .ok ⟨-9223371974719179009, 0⟩
      ∧ (⟨-9223371974719179009, 0⟩ : Time).unixSeconds ≠ 9223372036854775807
      ∧ (⟨-9223371974719179009, 0⟩ : Time).After (versionAt "a" "v1" 0).LastModified = false
      ∧ (versionAt "a" "v1" 0).LastModified.unixSeconds < 9223372036854775807 :=
  ⟨by decide, rfl, by decide, by decide, by decide⟩

/-- C8 (amended): parseTimestamp fails if and only if the string is not an optional
sign followed by one or more decimal digits or the integer it denotes is outside the
int64 range; for every other string whose integer i is at most 2^63 - 1 - 62135596800
it returns the instant exactly i whole seconds after the Unix epoch, with zero
sub-second part, and that instant is after a version's lastModified exactly when i is
greater than that version's epoch seconds. -/
theorem parseTimestamp_spec (s : String) :
    ((∃ e, parseTimestamp s = .error e) ↔
        (specIntegerOfString s = none
          ∨ ∃ i, specIntegerOfString s = some i ∧ (i < -2 ^ 63 ∨ 2 ^ 63 - 1 < i)))
      ∧ (∀ i, specIntegerOfString s = some i → -2 ^ 63 ≤ i → i ≤ 2 ^ 63 - 1 - unixToInternal →
          ∃ t, parseTimestamp s = .ok t ∧ t.nsec = 0 ∧ t.unixSeconds = i
            ∧ ∀ u : Time, t.After u = decide (u.unixSeconds < i)) := by
  obtain ⟨h1, h2, h3⟩ := ParseInt_spec s
  constructor
  · rw [parseTimestamp_error_iff]
    constructor
    · rintro ⟨e, he⟩
      cases hi : specIntegerOfString s with
      | none => exact Or.inl rfl
      | some i =>
        right
        refine ⟨i, rfl, ?_⟩
        by_contra hr
        have := h1 i hi (by omega) (by omega)
        rw [this] at he
        exact Option.noConfusion he
    · rintro (hn | ⟨i, hi, hr⟩)
      · exact h2 hn
      · exact h3 i hi hr
  · intro i hi hlo hhi
    have hoff : unixToInternal = 62135596800 := by decide
    have hp : ParseInt s = (i, none) := h1 i hi hlo (by rw [hoff] at hhi; omega)
    have ht : timeUnix i 0 = ⟨i + unixToInternal, 0⟩ := by
      have hw : wrapInt64 (i + unixToInternal) = i + unixToInternal :=
        wrapInt64_of_range _ (by rw [hoff]; omega) (by omega)
      simp [timeUnix, hw]
    refine ⟨⟨i + unixToInternal, 0⟩, ?_, rfl, ?_, ?_⟩
    · unfold parseTimestamp
      rw [hp]
      simp only []
      rw [ht]
    · simp [Time.unixSeconds]
    · intro u
      simp only [Time.After, Time.unixSeconds, gt_iff_lt, Nat.not_lt_zero, decide_False,
        Bool.and_false, Bool.or_false]
      congr 1
      apply propext
      constructor <;> intro h <;> omega

/-- Witness of C8 (amended): the timestamp of the example of the specification. -/
theorem parseTimestamp_spec_witness :
    specIntegerOfString "1622505600" = some 1622505600
      ∧ ∃ t, parseTimestamp "1622505600" = .ok t ∧ t.nsec = 0 ∧ t.unixSeconds = 1622505600
          ∧ ∀ u : Time, t.After u = decide (u.unixSeconds < 1622505600) :=
  ⟨by decide,
    (parseTimestamp_spec "1622505600").2 1622505600 (by decide) (by decide) (by decide)⟩

/-! ## Restoring twice -/

theorem history_putVersion (new : ObjectVersion) (l : List ObjectVersion) (k : String) :
    history k (putVersion new l) = if new.Key = k then new :: history k l else history k l := by
  induction l with
  | nil => simp [putVersion, history, List.filter_cons]
  | cons r rest ih =>
    unfold history at ih ⊢
    rw [putVersion]
    by_cases hr : r.Key = new.Key
    · rw [if_pos hr]
      by_cases hk : new.Key = k
      · simp [List.filter_cons, hk, hr]
      · have : ¬ r.Key = k := by rw [hr]; exact hk
        simp [List.filter_cons, hk, this]
    · rw [if_neg hr, List.filter_cons, ih]
      by_cases hk : new.Key = k
      · have : ¬ r.Key = k := by rw [← hk]; exact hr
        simp [List.filter_cons, hk, this]
      · simp [List.filter_cons, hk]

theorem string_append_left_cancel (a x y : String) (h : a ++ x = a ++ y) : x = y := by
  have := congrArg String.data h
  simp only [String.data_append] at this
  exact String.ext (List.append_cancel_left this)

theorem find_version_eq (b : Bucket) (bkt : String) (t : ObjectVersion) :
    b.versions.find? (fun v => decide (v.Key = (copyParams bkt t).Key)
        && decide ((copyParams bkt t).CopySource
            = (copyParams bkt t).Bucket ++ "/" ++ v.Key ++ "?versionId=" ++ v.VersionId))
      = (history t.Key b.versions).find? (fun v => decide (v.VersionId = t.VersionId)) := by
  unfold history
  rw [List.find?_filter]
  congr 1
  funext v
  simp only [copyParams]
  by_cases hk : v.Key = t.Key
  · simp only [hk, decide_True, Bool.true_and, Bool.and_true, true_and]
    by_cases hv : v.VersionId = t.VersionId
    · simp [hv]
    · have : ¬ (bkt ++ "/" ++ t.Key ++ "?versionId=" ++ t.VersionId
          = bkt ++ "/" ++ t.Key ++ "?versionId=" ++ v.VersionId) := by
        intro h
        exact hv (string_append_left_cancel _ _ _ h).symm
      simp [hv, this]
  · simp [hk]

theorem storage_copy (stamp : Nat → String × Time) (b : Bucket) (t src : ObjectVersion)
    (hsrc : (history t.Key b.versions).find? (fun v => decide (v.VersionId = t.VersionId))
      = some src) :
    (versionedStorage stamp).CopyObject (copyParams b.name t) b
      = (.ok ⟨src.ETag, (stamp b.copies).1⟩,
          ⟨b.name, putVersion ⟨t.Key, (stamp b.copies).1, (stamp b.copies).2, src.ETag⟩
            b.versions, b.copies + 1⟩) := by
  have h := find_version_eq b b.name t
  rw [hsrc] at h
  simp only [versionedStorage]
  rw [if_pos (by rfl), h]
  rfl

theorem copiedETag_cons_same (c : CopyCall) (calls : List CopyCall) (k : String)
    (resp : CopyObjectOutput) (hk : c.input.Key = k) (ho : c.output = .ok resp) :
    copiedETag (c :: calls) k = some resp.ETag := by
  simp [copiedETag, List.find?_cons, hk, ho]

theorem copiedETag_cons_other (c : CopyCall) (calls : List CopyCall) (k : String)
    (hk : ¬ c.input.Key = k) :
    copiedETag (c :: calls) k = copiedETag calls k := by
  simp [copiedETag, List.find?_cons, hk]

/-- The restorer on the versioned storage: every target that names a stored version
is copied, and each key's history grows by one record with the content of the
target. -/
theorem specApplyTargets_storage (stamp : Nat → String × Time) (ts : List ObjectVersion)
    (b : Bucket) (hnodup : (ts.map (fun v => v.Key)).Nodup)
    (hres : ∀ t ∈ ts, ∃ e, resolveETag (history t.Key b.versions) t.VersionId = some e) :
    (specApplyTargets (versionedStorage stamp) b.name ts b).failed = false
      ∧ (specApplyTargets (versionedStorage stamp) b.name ts b).world.name = b.name
      ∧ ∀ k,
        (ts.find? (fun v => decide (v.Key = k)) = none →
          history k (specApplyTargets (versionedStorage stamp) b.name ts b).world.versions
              = history k b.versions
            ∧ copiedETag (specApplyTargets (versionedStorage stamp) b.name ts b).calls k = none)
        ∧ (∀ t, ts.find? (fun v => decide (v.Key = k)) = some t →
          ∃ e id tm, resolveETag (history k b.versions) t.VersionId = some e
            ∧ history k (specApplyTargets (versionedStorage stamp) b.name ts b).world.versions
                = ⟨k, id, tm, e⟩ :: history k b.versions
            ∧ copiedETag (specApplyTargets (versionedStorage stamp) b.name ts b).calls k
                = some e) := by
  induction ts generalizing b with
  | nil =>
    refine ⟨rfl, rfl, fun k => ⟨fun _ => ⟨rfl, rfl⟩, fun t ht => ?_⟩⟩
    simp at ht
  | cons t ts ih =>
    obtain ⟨e, he⟩ := hres t (List.mem_cons_self _ _)
    simp only [resolveETag, Option.map_eq_some'] at he
    obtain ⟨src, hsrc, hsrce⟩ := he
    rw [List.map_cons, List.nodup_cons] at hnodup
    have hcopy := storage_copy stamp b t src hsrc
    have hb1 : (⟨b.name, putVersion ⟨t.Key, (stamp b.copies).1, (stamp b.copies).2, src.ETag⟩
            b.versions, b.copies + 1⟩ : Bucket).name = b.name := rfl
    have hother : ∀ t1 ∈ ts, ¬ t.Key = t1.Key := by
      intro t1 ht1 heq
      exact hnodup.1 (List.mem_map.2 ⟨t1, ht1, heq.symm⟩)
    have hres1 : ∀ t1 ∈ ts, ∃ e1, resolveETag (history t1.Key
        (⟨b.name, putVersion ⟨t.Key, (stamp b.copies).1, (stamp b.copies).2, src.ETag⟩
            b.versions, b.copies + 1⟩ : Bucket).versions) t1.VersionId = some e1 := by
      intro t1 ht1
      simp only [history_putVersion, hother t1 ht1, if_false]
      exact hres t1 (List.mem_cons_of_mem _ ht1)
    have ih1 := ih ⟨b.name, putVersion ⟨t.Key, (stamp b.copies).1, (stamp b.copies).2, src.ETag⟩
            b.versions, b.copies + 1⟩ hnodup.2 hres1
    rw [hb1] at ih1
    obtain ⟨ihf, ihn, ihk⟩ := ih1
    rw [specApplyTargets, hcopy]
    simp only []
    refine ⟨ihf, ihn, ?_⟩
    intro k
    by_cases hk : t.Key = k
    · have hnone : ts.find? (fun v => decide (v.Key = k)) = none := by
        rw [List.find?_eq_none]
        intro x hx
        have := hother x hx
        rw [hk] at this
        simpa using fun h => this h.symm
      have hfind : (t :: ts).find? (fun v => decide (v.Key = k)) = some t := by
        simp [List.find?_cons, hk]
      rw [hfind]
      refine ⟨fun h => Option.noConfusion h, ?_⟩
      intro t0 ht0
      injection ht0 with ht0
      subst ht0
      refine ⟨src.ETag, (stamp b.copies).1, (stamp b.copies).2, ?_, ?_, ?_⟩
      · rw [← hk]
        simp [resolveETag, hsrc]
      · rw [(ihk k).1 hnone |>.1, history_putVersion]
        simp [hk]
      · exact copiedETag_cons_same _ _ _ ⟨src.ETag, (stamp b.copies).1⟩ (by simp [copyParams, hk]) rfl
    · have hfind : (t :: ts).find? (fun v => decide (v.Key = k))
          = ts.find? (fun v => decide (v.Key = k)) := by
        simp [List.find?_cons, hk]
      have hhist : history k (putVersion ⟨t.Key, (stamp b.copies).1, (stamp b.copies).2, src.ETag⟩
            b.versions) = history k b.versions := by
        rw [history_putVersion]; simp [hk]
      have hcop : ∀ calls, copiedETag (⟨t, copyParams b.name t,
          .ok ⟨src.ETag, (stamp b.copies).1⟩⟩ :: calls) k = copiedETag calls k :=
        fun calls => copiedETag_cons_other _ _ _ (by simp [copyParams, hk])
      rw [hfind, hcop]
      have := ihk k
      simp only [hhist] at this
      exact this

theorem find_eq_head_filter {α : Type} (q : α → Bool) (l : List α) :
    l.find? q = (l.filter q).head? := by
  rw [List.filter_head?]

theorem history_listing (pfx : String) (l : List ObjectVersion) (k : String) :
    (l.filter (fun v => pfx.data.isPrefixOf v.Key.data)).filter (fun v => decide (v.Key = k))
      = if pfx.data.isPrefixOf k.data then history k l else [] := by
  unfold history
  rw [List.filter_filter]
  by_cases hp : pfx.data.isPrefixOf k.data = true
  · rw [if_pos hp]
    apply List.filter_congr
    intro v _
    by_cases hk : v.Key = k
    · simp [hk, hp]
    · simp [hk]
  · rw [if_neg hp]
    rw [List.filter_eq_nil_iff]
    intro v _
    by_cases hk : v.Key = k
    · simp [hk, hp]
    · simp [hk]

theorem select_listing (T : Time) (pfx : String) (b : Bucket) (k : String) :
    (specSelect T (b.versions.filter (fun v => pfx.data.isPrefixOf v.Key.data)) []).find?
        (fun v => decide (v.Key = k))
      = selectedOf T pfx b k := by
  rw [find_eq_head_filter, specSelect_filter, firstBefore_eq_filter, history_listing]
  unfold selectedOf
  by_cases hp : pfx.data.isPrefixOf k.data = true
  · simp only [hp, if_true, List.not_mem_nil, if_false]
    cases (history k b.versions).find? (fun v => T.After v.LastModified) <;> rfl
  · simp [hp]

theorem mem_history_resolves (l : List ObjectVersion) (t : ObjectVersion) (ht : t ∈ l) :
    ∃ e, resolveETag (history t.Key l) t.VersionId = some e := by
  have hm : t ∈ history t.Key l := by
    unfold history
    rw [List.mem_filter]
    exact ⟨ht, by simp⟩
  have : ((history t.Key l).find? (fun v => decide (v.VersionId = t.VersionId))).isSome
      = true := by
    rw [List.find?_isSome]
    exact ⟨t, hm, by simp⟩
  rcases Option.isSome_iff_exists.1 this with ⟨src, hsrc⟩
  exact ⟨src.ETag, by simp [resolveETag, hsrc]⟩

/-- One pass of the restore loop over the listing of the versioned storage. -/
theorem restoreLoop_storage (stamp : Nat → String × Time) (T : Time) (pfx : String)
    (b : Bucket) :
    (restoreLoop (versionedStorage stamp) b.name T
        (b.versions.filter (fun v => pfx.data.isPrefixOf v.Key.data)) [] b).failed = false
      ∧ (restoreLoop (versionedStorage stamp) b.name T
        (b.versions.filter (fun v => pfx.data.isPrefixOf v.Key.data)) [] b).world.name = b.name
      ∧ ∀ k,
        (selectedOf T pfx b k = none →
          history k (restoreLoop (versionedStorage stamp) b.name T
              (b.versions.filter (fun v => pfx.data.isPrefixOf v.Key.data)) [] b).world.versions
              = history k b.versions
            ∧ copiedETag (restoreLoop (versionedStorage stamp) b.name T
              (b.versions.filter (fun v => pfx.data.isPrefixOf v.Key.data)) [] b).calls k = none)
        ∧ (∀ t, selectedOf T pfx b k = some t →
          ∃ e id tm, resolveETag (history k b.versions) t.VersionId = some e
            ∧ history k (restoreLoop (versionedStorage stamp) b.name T
                (b.versions.filter (fun v => pfx.data.isPrefixOf v.Key.data)) [] b).world.versions
                = ⟨k, id, tm, e⟩ :: history k b.versions
            ∧ copiedETag (restoreLoop (versionedStorage stamp) b.name T
                (b.versions.filter (fun v => pfx.data.isPrefixOf v.Key.data)) [] b).calls k
                = some e) := by
  have happ := restoreLoop_eq_specApplyTargets (versionedStorage stamp) b.name T
    (b.versions.filter (fun v => pfx.data.isPrefixOf v.Key.data)) [] b
  simp only [List.map_nil] at happ
  rw [happ]
  have hres : ∀ t ∈ specSelect T
      (b.versions.filter (fun v => pfx.data.isPrefixOf v.Key.data)) [],
      ∃ e, resolveETag (history t.Key b.versions) t.VersionId = some e := by
    intro t ht
    have := (specSelect_mem T _ [] t ht).1
    exact mem_history_resolves b.versions t (List.mem_filter.1 this).1
  have h := specApplyTargets_storage stamp _ b (specSelect_nodup T _ []) hres
  refine ⟨h.1, h.2.1, ?_⟩
  intro k
  have hk := h.2.2 k
  rw [select_listing] at hk
  exact hk

theorem currentETag_eq_head (b : Bucket) (k : String) :
    b.currentETag k = ((history k b.versions).head?).map (fun v => v.ETag) := by
  unfold Bucket.currentETag history
  rw [List.filter_head?]

/-- Two passes of the restore loop over the versioned storage, the second over the
listing the first one left. -/
theorem restoreLoop_storage_twice (stamp : Nat → String × Time) (T : Time) (pfx : String)
    (b : Bucket) (k : String) :
    copiedETag (restoreLoop (versionedStorage stamp) b.name T
        ((restoreLoop (versionedStorage stamp) b.name T
          (b.versions.filter (fun v => pfx.data.isPrefixOf v.Key.data)) [] b).world.versions.filter
            (fun v => pfx.data.isPrefixOf v.Key.data)) []
        (restoreLoop (versionedStorage stamp) b.name T
          (b.versions.filter (fun v => pfx.data.isPrefixOf v.Key.data)) [] b).world).calls k
      = copiedETag (restoreLoop (versionedStorage stamp) b.name T
          (b.versions.filter (fun v => pfx.data.isPrefixOf v.Key.data)) [] b).calls k
    ∧ (restoreLoop (versionedStorage stamp) b.name T
        ((restoreLoop (versionedStorage stamp) b.name T
          (b.versions.filter (fun v => pfx.data.isPrefixOf v.Key.data)) [] b).world.versions.filter
            (fun v => pfx.data.isPrefixOf v.Key.data)) []
        (restoreLoop (versionedStorage stamp) b.name T
          (b.versions.filter (fun v => pfx.data.isPrefixOf v.Key.data)) [] b).world).world.currentETag k
      = (restoreLoop (versionedStorage stamp) b.name T
          (b.versions.filter (fun v => pfx.data.isPrefixOf v.Key.data)) [] b).world.currentETag k
    ∧ (∀ t, selectedOf T pfx b k = some t →
        ∃ e, resolveETag (history k b.versions) t.VersionId = some e
          ∧ copiedETag (restoreLoop (versionedStorage stamp) b.name T
            (b.versions.filter (fun v => pfx.data.isPrefixOf v.Key.data)) [] b).calls k
              = some e) := by
  obtain ⟨_, hn1, hk1⟩ := restoreLoop_storage stamp T pfx b
  generalize (restoreLoop (versionedStorage stamp) b.name T
          (b.versions.filter (fun v => pfx.data.isPrefixOf v.Key.data)) [] b).world = b1 at *
  generalize (restoreLoop (versionedStorage stamp) b.name T
          (b.versions.filter (fun v => pfx.data.isPrefixOf v.Key.data)) [] b).calls = calls1 at *
  rw [← hn1]
  obtain ⟨_, _, hk2⟩ := restoreLoop_storage stamp T pfx b1
  generalize (restoreLoop (versionedStorage stamp) b1.name T
          (b1.versions.filter (fun v => pfx.data.isPrefixOf v.Key.data)) [] b1).world = b2 at *
  generalize (restoreLoop (versionedStorage stamp) b1.name T
          (b1.versions.filter (fun v => pfx.data.isPrefixOf v.Key.data)) [] b1).calls = calls2 at *
  rw [currentETag_eq_head, currentETag_eq_head]
  obtain ⟨hnone1, hsome1⟩ := hk1 k
  obtain ⟨hnone2, hsome2⟩ := hk2 k
  cases hsel : selectedOf T pfx b k with
  | none =>
    obtain ⟨hh1, hc1⟩ := hnone1 hsel
    have hsel2 : selectedOf T pfx b1 k = none := by
      unfold selectedOf at hsel ⊢
      rw [hh1]
      exact hsel
    obtain ⟨hh2, hc2⟩ := hnone2 hsel2
    rw [hc1, hc2, hh2]
    exact ⟨rfl, rfl, fun t ht => Option.noConfusion ht⟩
  | some t =>
    obtain ⟨e, id, tm, hres, hh1, hc1⟩ := hsome1 t hsel
    have hp : pfx.data.isPrefixOf k.data = true := by
      unfold selectedOf at hsel
      by_contra hp
      rw [if_neg hp] at hsel
      exact Option.noConfusion hsel
    have hfind : (history k b.versions).find? (fun v => T.After v.LastModified) = some t := by
      unfold selectedOf at hsel
      rw [if_pos hp] at hsel
      exact hsel
    have key : ∃ t2, selectedOf T pfx b1 k = some t2
        ∧ resolveETag (history k b1.versions) t2.VersionId = some e := by
      unfold selectedOf
      rw [if_pos hp, hh1, List.find?_cons]
      by_cases ha : T.After tm = true
      · refine ⟨⟨k, id, tm, e⟩, by simp [ha], ?_⟩
        simp [resolveETag, List.find?_cons]
      · refine ⟨t, by simp [ha, hfind], ?_⟩
        by_cases hid : id = t.VersionId
        · simp [resolveETag, List.find?_cons, hid]
        · have : resolveETag (⟨k, id, tm, e⟩ :: history k b.versions) t.VersionId
              = resolveETag (history k b.versions) t.VersionId := by
            simp [resolveETag, List.find?_cons, hid]
          rw [this, hres]
    obtain ⟨t2, hsel2, hres2⟩ := key
    obtain ⟨e2, id2, tm2, hres2b, hh2, hc2⟩ := hsome2 t2 hsel2
    have he : e2 = e := by
      rw [hres2] at hres2b
      injection hres2b with h
      exact h.symm
    subst he
    rw [hc1, hc2, hh2, hh1]
    refine ⟨rfl, rfl, ?_⟩
    intro t0 ht0
    injection ht0 with ht0
    subst ht0
    exact ⟨e2, hres, rfl⟩

theorem main_storage (stamp : Nat → String × Time) (b : Bucket) (ts prx : String) (T : Time)
    (hb : b.name ≠ "") (ht : ts ≠ "") (hT : parseTimestamp ts = .ok T) :
    (main none (versionedStorage stamp) (.restore b.name ts prx) b).copyCalls
        = (restoreLoop (versionedStorage stamp) b.name T
            (b.versions.filter (fun v => prx.data.isPrefixOf v.Key.data)) [] b).calls
      ∧ (main none (versionedStorage stamp) (.restore b.name ts prx) b).world
        = (restoreLoop (versionedStorage stamp) b.name T
            (b.versions.filter (fun v => prx.data.isPrefixOf v.Key.data)) [] b).world := by
  rw [main_restore _ _ _ _ _ hb ht]
  have hl : (versionedStorage stamp).ListObjectVersions ⟨b.name, prx, none, none⟩ b
      = (.ok ⟨b.versions.filter (fun v => prx.data.isPrefixOf v.Key.data), false, none, none⟩,
          b) := by
    simp [versionedStorage]
  rw [hl]
  simp [hT]

theorem main_storage_unchanged (stamp : Nat → String × Time) (b : Bucket)
    (bkt ts prx : String)
    (h : bkt = "" ∨ ts = "" ∨ bkt ≠ b.name ∨ ∃ e, parseTimestamp ts = .error e) :
    (main none (versionedStorage stamp) (.restore bkt ts prx) b).copyCalls = []
      ∧ (main none (versionedStorage stamp) (.restore bkt ts prx) b).world = b := by
  by_cases hb : bkt = ""
  · simp [main, parseArguments, hb]
  · by_cases ht : ts = ""
    · simp [main, parseArguments, ht]
    · rw [main_restore _ _ _ _ _ hb ht]
      by_cases hn : bkt = b.name
      · have hl : (versionedStorage stamp).ListObjectVersions ⟨bkt, prx, none, none⟩ b
            = (.ok ⟨b.versions.filter (fun v => prx.data.isPrefixOf v.Key.data),
                false, none, none⟩, b) := by
          simp [versionedStorage, hn]
        rw [hl]
        rcases h with h | h | h | ⟨e, he⟩
        · exact absurd h hb
        · exact absurd h ht
        · exact absurd hn h
        · simp [he]
      · have hl : (versionedStorage stamp).ListObjectVersions ⟨bkt, prx, none, none⟩ b
            = (.error "NoSuchBucket", b) := by
          simp [versionedStorage, hn]
        rw [hl]
        exact ⟨rfl, rfl⟩

/-- C9: on the versioned storage (every copy puts in front of its key's history a
new current version with the content of the copied version), for every bucket,
command line and key: a second restore run with the same arguments over the state the
first run left copies, for that key, the same content as the first run copied (or
nothing if the first run copied nothing), and leaves the same content current; and
the first run does copy the content of the version it selects for the key. -/
theorem restore_twice_restores_same_content (stamp : Nat → String × Time) (b : Bucket)
    (bkt ts prx : String) (k : String) :
    copiedETag (main none (versionedStorage stamp) (.restore bkt ts prx)
        (main none (versionedStorage stamp) (.restore bkt ts prx) b).world).copyCalls k
      = copiedETag (main none (versionedStorage stamp) (.restore bkt ts prx) b).copyCalls k
    ∧ (main none (versionedStorage stamp) (.restore bkt ts prx)
        (main none (versionedStorage stamp) (.restore bkt ts prx) b).world).world.currentETag k
      = (main none (versionedStorage stamp) (.restore bkt ts prx) b).world.currentETag k
    ∧ (∀ T t, bkt = b.name → bkt ≠ "" → parseTimestamp ts = .ok T →
        selectedOf T prx b k = some t →
        ∃ e, resolveETag (history k b.versions) t.VersionId = some e
          ∧ copiedETag (main none (versionedStorage stamp) (.restore bkt ts prx) b).copyCalls k
              = some e) := by
  by_cases h : bkt = "" ∨ ts = "" ∨ bkt ≠ b.name ∨ ∃ e, parseTimestamp ts = .error e
  · obtain ⟨hc, hw⟩ := main_storage_unchanged stamp b bkt ts prx h
    rw [hw, hc, hw]
    refine ⟨rfl, rfl, ?_⟩
    intro T t hn hb hT _
    exfalso
    rcases h with h | h | h | ⟨e, he⟩
    · exact hb h
    · rw [h] at hT
      have : parseTimestamp "" = .error .ErrSyntax := rfl
      rw [this] at hT
      exact Except.noConfusion hT
    · exact h hn
    · rw [he] at hT
      exact Except.noConfusion hT
  · simp only [not_or, not_not, not_exists] at h
    obtain ⟨hb, ht, hn, herr⟩ := h
    subst hn
    cases hT : parseTimestamp ts with
    | error e => exact absurd hT (herr e)
    | ok T =>
      obtain ⟨hc1, hw1⟩ := main_storage stamp b ts prx T hb ht hT
      obtain ⟨_, hn1, _⟩ := restoreLoop_storage stamp T prx b
      have h2 := main_storage stamp
        (restoreLoop (versionedStorage stamp) b.name T
            (b.versions.filter (fun v => prx.data.isPrefixOf v.Key.data)) [] b).world ts prx T
        (by rw [hn1]; exact hb) ht hT
      rw [hn1] at h2
      obtain ⟨hc2, hw2⟩ := h2
      obtain ⟨g1, g2, g3⟩ := restoreLoop_storage_twice stamp T prx b k
      rw [hw1, hc1, hc2, hw2]
      refine ⟨g1, g2, ?_⟩
      intro T1 t _ _ hT1 hsel
      injection hT1 with hT1
      subst hT1
      exact g3 t hsel

/-- Witness of C9: the example of the specification, restored twice to 2021-06-01:
both runs copy the content of version v2 of key `a`. -/
theorem restore_twice_restores_same_content_witness :
    copiedETag (main none (versionedStorage exampleStamp) (.restore "b" "1622505600" "")
        (main none (versionedStorage exampleStamp) (.restore "b" "1622505600" "")
          exampleBucket).world).copyCalls "a"
      = copiedETag (main none (versionedStorage exampleStamp) (.restore "b" "1622505600" "")
          exampleBucket).copyCalls "a"
    ∧ copiedETag (main none (versionedStorage exampleStamp) (.restore "b" "1622505600" "")
          exampleBucket).copyCalls "a" = some "a-v2" :=
  ⟨(restore_twice_restores_same_content exampleStamp exampleBucket "b" "1622505600" "" "a").1,
    by decide⟩

end S3Restore
